import Mathlib

/-!
Verification development for the promptbox filesystem-backed content store
(`backend/server.js`).  The store keeps each project as a pair of files inside
a category directory: a metadata file `<id>.json` and a content file `<id>.md`.
Legacy projects are a single `.md` file with an embedded frontmatter header,
migrated lazily to the split format on first access.

The embedding below models the data directory as an explicit `Store` value and
each HTTP handler of the source as a pure function from `Store` to
`Except String (Store × result)`.  Timestamps (both `Date.now()` values and
`toISOString()` strings) are modelled uniformly as naturals.  The frontmatter
parser `matter` models the gray-matter library on the flat
one-key-per-line subset of YAML that the store reads and writes.  The stable
JavaScript `Array.prototype.sort` is modelled by the stable insertion sort
`sortStable` (a stable sort with a total comparator is unique, so any correct
implementation computes the same list).
-/

namespace PromptBox

/-! ## Character-list string utilities

All string processing is done by structural recursion over `String.data`
so that every definition evaluates by `decide` on concrete inputs. -/

/-- Tests whether `pat` is an initial segment of `s`. -/
def leadMatch : List Char → List Char → Bool
  | [], _ => true
  | _ :: _, [] => false
  | p :: ps, c :: cs => p = c && leadMatch ps cs

/-- Finds the first occurrence of `sep` in `s`, returning the part before it
and the part after it. -/
def findSplit (sep : List Char) : List Char → Option (List Char × List Char)
  | [] => none
  | c :: cs =>
    if leadMatch sep (c :: cs) then some ([], (c :: cs).drop sep.length)
    else
      match findSplit sep cs with
      | some (a, b) => some (c :: a, b)
      | none => none

/-- Fuelled splitting on a separator (the fuel makes the recursion structural). -/
def splitFuel (sep : List Char) : Nat → List Char → List (List Char)
  | 0, s => [s]
  | fuel + 1, s =>
    match findSplit sep s with
    | none => [s]
    | some (a, b) => a :: splitFuel sep fuel b

/-- Splits a character list on every occurrence of a non-empty separator. -/
def splitAll (sep : List Char) (s : List Char) : List (List Char) :=
  if sep.isEmpty then [s] else splitFuel sep (s.length + 1) s

/-- Splits a string into its lines (separator `"\n"`). -/
def toLines (s : String) : List String :=
  (splitAll ['\n'] s.data).map String.mk

/-- Joins a list of strings with the given separator between elements. -/
def joinSep (sep : String) : List String → String
  | [] => ""
  | [x] => x
  | x :: y :: rest => x ++ sep ++ joinSep sep (y :: rest)

/-- Whitespace test used by trimming. -/
def isWs (c : Char) : Bool := c = ' ' || c = '\t' || c = '\r' || c = '\n'

/-- Drops leading whitespace from a character list. -/
def dropWs : List Char → List Char
  | [] => []
  | c :: cs => if isWs c then dropWs cs else c :: cs

/-- Trims whitespace from both ends of a string. -/
def trimS (s : String) : String :=
  String.mk ((dropWs ((dropWs s.data).reverse)).reverse)

/-- Digit test. -/
def isDigitC (c : Char) : Bool := '0' ≤ c && c ≤ '9'

/-- Parses a string of decimal digits into a natural number. -/
def parseNatQ (s : String) : Option Nat :=
  if s.data ≠ [] && s.data.all isDigitC then
    some (s.data.foldl (fun acc c => acc * 10 + (c.toNat - '0'.toNat)) 0)
  else none

/-- Replaces the first occurrence of `pat` in `s` by `repl`
(`String.prototype.replace` with a plain-string pattern). -/
def replaceFirst (s pat repl : String) : String :=
  if pat = "" then s
  else
    match findSplit pat.data s.data with
    | none => s
    | some (a, b) => String.mk (a ++ repl.data ++ b)

/-- Tests whether a name starts with a dot (hidden directory check). -/
def startsDot (s : String) : Bool :=
  match s.data with
  | [] => false
  | c :: _ => c = '.'

/-- JavaScript `||` on an optional string: the default is used both when the
value is absent and when it is the falsy empty string. -/
def jsOrS (o : Option String) (d : String) : String :=
  match o with
  | some s => if s = "" then d else s
  | none => d

/-! ## Data model

`Time` stands for both `Date.now()` millisecond values and `toISOString()`
strings (the code only ever generates, stores and compares them). -/

abbrev Time := Nat

/-- A version record as appended by `POST /api/projects/:id/versions`. -/
structure Version where
  vid : Time
  version_num : Nat
  content : String
  parameters : List (String × String)
  created_at : Time
deriving Repr, DecidableEq

/-- The split-format project metadata stored in `<id>.json`. -/
structure ProjMeta where
  id : String
  name : String
  description : Option String
  tags : List String
  category_id : String
  is_favorite : Bool
  created_at : Time
  updated_at : Time
  type : String
  versions : List Version
deriving Repr, DecidableEq

/-- The category sidecar file `_category.json`; every field is optional because
the file is arbitrary JSON merged over defaults by spreading. -/
structure CatMetaFile where
  id : Option String
  name : Option String
  color : Option String
  icon : Option (Option String)
  sort_order : Option Int
deriving Repr, DecidableEq

/-- A category as returned by `GET /api/categories` after merging the sidecar
over the defaults. -/
structure CategoryOut where
  id : String
  name : String
  color : String
  icon : Option String
  sort_order : Int
deriving Repr, DecidableEq

/-- A top-level directory of the data dir: its name, optional sidecar, and the
`.md` and `.json` files it contains, keyed by basename, in enumeration order. -/
structure Dir where
  dname : String
  catMeta : Option CatMetaFile
  mds : List (String × String)
  jsons : List (String × ProjMeta)
deriving Repr, DecidableEq

/-- The whole data directory: subdirectories plus top-level plain files
(such as `settings.json`), in enumeration order. -/
structure Store where
  dirs : List Dir
  topFiles : List String
deriving Repr, DecidableEq

/-- The project view returned by the handlers: the metadata spread together
with the body of the content file. -/
structure ProjectOut where
  meta : ProjMeta
  current_content : String
deriving Repr, DecidableEq

/-! ## Frontmatter (gray-matter model)

The code calls `matter(content)` and uses `parsed.data` (keyed header fields)
and `parsed.content` (the body with the header block stripped).  `FmData`
abstracts `parsed.data` restricted to the keys the store reads; `extra` records
any further keys so that emptiness of the header is faithful. -/

structure FmData where
  id : Option String := none
  name : Option String := none
  description : Option String := none
  tags : Option (List String) := none
  is_favorite : Option Bool := none
  created_at : Option Time := none
  updated_at : Option Time := none
  type : Option String := none
  versions : Option (List Version) := none
  extra : List String := []
deriving Repr, DecidableEq

/-- Emptiness of the parsed header, i.e. `Object.keys(parsed.data).length == 0`. -/
def FmData.isEmpty (d : FmData) : Bool :=
  d.id.isNone && d.name.isNone && d.description.isNone && d.tags.isNone &&
  d.is_favorite.isNone && d.created_at.isNone && d.updated_at.isNone &&
  d.type.isNone && d.versions.isNone && d.extra.isEmpty

/-- Parses a bracketed inline YAML sequence such as `[a, b]`. -/
def parseTagList (s : String) : Option (List String) :=
  if leadMatch ['['] s.data && leadMatch [']'] s.data.reverse then
    let inner := String.mk ((s.data.drop 1).reverse.drop 1).reverse
    if trimS inner = "" then some []
    else some ((splitAll [','] inner.data).map (fun l => trimS (String.mk l)))
  else none

/-- Adds one `key: value` header line to the parsed data.  Lines that are
blank or comments are skipped; anything unrecognised is kept in `extra`. -/
def fmAddLine (d : FmData) (line : String) : FmData :=
  let t := trimS line
  if t = "" then d
  else if leadMatch ['#'] t.data then d
  else
    match splitAll [':'] t.data with
    | [] => { d with extra := d.extra ++ [t] }
    | [_] => { d with extra := d.extra ++ [t] }
    | k :: vs =>
      let key := trimS (String.mk k)
      let v := trimS (joinSep ":" (vs.map String.mk))
      if key = "id" then { d with id := some v }
      else if key = "name" then { d with name := some v }
      else if key = "description" then { d with description := some v }
      else if key = "type" then { d with type := some v }
      else if key = "is_favorite" then { d with is_favorite := some (v = "true") }
      else if key = "created_at" then
        match parseNatQ v with
        | some n => { d with created_at := some n }
        | none => { d with extra := d.extra ++ [t] }
      else if key = "updated_at" then
        match parseNatQ v with
        | some n => { d with updated_at := some n }
        | none => { d with extra := d.extra ++ [t] }
      else if key = "tags" then
        match parseTagList v with
        | some l => { d with tags := some l }
        | none => { d with extra := d.extra ++ [t] }
      else { d with extra := d.extra ++ [t] }

/-- Parses the lines of a header block. -/
def parseFmLines (ls : List String) : FmData := ls.foldl fmAddLine {}

/-- Result of `matter(...)`: the parsed header and the stripped body. -/
structure MatterRes where
  data : FmData
  content : String
deriving Repr, DecidableEq

/-- Model of gray-matter on line-structured input: a file whose first line is
exactly `---` opens a header block closed by the next `---` line (or running
to the end of the file if there is none); the body is everything after the
closing line.  Files not opening with `---` have an empty header and the whole
file as body. -/
def matter (s : String) : MatterRes :=
  match toLines s with
  | [] => { data := {}, content := s }
  | first :: rest =>
    if first = "---" then
      match rest.findIdx? (fun l => l = "---") with
      | some j =>
        { data := parseFmLines (rest.take j), content := joinSep "\n" (rest.drop (j + 1)) }
      | none => { data := parseFmLines rest, content := "" }
    else { data := {}, content := s }

/-! ## Filesystem primitives on the store -/

/-- Association-list lookup by key (a directory holds at most one file per
name, mirrored by taking the first match). -/
def lookupA (k : String) : List (String × β) → Option β
  | [] => none
  | (k1, v1) :: rest => if k1 = k then some v1 else lookupA k rest

/-- Writes a file: replaces the entry in place if the name exists, otherwise
appends it at the end of the enumeration. -/
def setAssoc (k : String) (v : β) : List (String × β) → List (String × β)
  | [] => [(k, v)]
  | (k1, v1) :: rest => if k1 = k then (k, v) :: rest else (k1, v1) :: setAssoc k v rest

/-- Removes a file by name. -/
def delAssoc (k : String) : List (String × β) → List (String × β)
  | [] => []
  | (k1, v1) :: rest => if k1 = k then delAssoc k rest else (k1, v1) :: delAssoc k rest

/-- Updates the directory with the given name (a path names one directory). -/
def updFirst (n : String) (f : Dir → Dir) : List Dir → List Dir
  | [] => []
  | d :: rest => if d.dname = n then f d :: rest else d :: updFirst n f rest

/-- Finds the directory with the given name in a directory list. -/
def findDirL (n : String) : List Dir → Option Dir
  | [] => none
  | d :: rest => if d.dname = n then some d else findDirL n rest

/-- Finds the directory with the given name. -/
def Store.findDir (st : Store) (n : String) : Option Dir :=
  findDirL n st.dirs

/-- Reads the content file `<b>.md` inside directory `c`. -/
def Store.readMd (st : Store) (c b : String) : Option String :=
  match st.findDir c with
  | some d => lookupA b d.mds
  | none => none

/-- Reads the metadata file `<b>.json` inside directory `c`. -/
def Store.readJson (st : Store) (c b : String) : Option ProjMeta :=
  match st.findDir c with
  | some d => lookupA b d.jsons
  | none => none

/-- Writes the content file `<b>.md` inside directory `c`. -/
def Store.writeMd (st : Store) (c b v : String) : Store :=
  { st with dirs := updFirst c (fun d => { d with mds := setAssoc b v d.mds }) st.dirs }

/-- Writes the metadata file `<b>.json` inside directory `c`. -/
def Store.writeJson (st : Store) (c b : String) (m : ProjMeta) : Store :=
  { st with dirs := updFirst c (fun d => { d with jsons := setAssoc b m d.jsons }) st.dirs }

/-- Unlinks the content file. -/
def Store.unlinkMd (st : Store) (c b : String) : Store :=
  { st with dirs := updFirst c (fun d => { d with mds := delAssoc b d.mds }) st.dirs }

/-- Unlinks the metadata file. -/
def Store.unlinkJson (st : Store) (c b : String) : Store :=
  { st with dirs := updFirst c (fun d => { d with jsons := delAssoc b d.jsons }) st.dirs }

/-- `fs.ensureDir`: creates the directory at the end of the enumeration when
it is absent. -/
def Store.ensureDir (st : Store) (n : String) : Store :=
  if (st.findDir n).isSome then st
  else { st with dirs := st.dirs ++ [⟨n, none, [], []⟩] }

/-! ## The migrator (`migrateToSplitFormat`) -/

/-- A write event, used to state in which order migration touches the disk. -/
inductive WEv where
  | wjson (cat base : String) (m : ProjMeta)
  | wmd (cat base : String) (s : String)
deriving Repr, DecidableEq

/-- The normalized metadata record migration builds from a legacy header
(the defaults follow the `||` fallbacks of the source, where `||` on strings
also replaces the falsy empty string). -/
def migMeta (now : Time) (catName baseName : String) (raw : String) : ProjMeta :=
  let parsed := matter raw
  { id := jsOrS parsed.data.id baseName
    name := jsOrS parsed.data.name baseName
    description := parsed.data.description
    tags := parsed.data.tags.getD []
    category_id := catName
    is_favorite := parsed.data.is_favorite.getD false
    created_at := parsed.data.created_at.getD now
    updated_at := parsed.data.updated_at.getD now
    type := jsOrS parsed.data.type "text"
    versions := parsed.data.versions.getD [] }

/-- `migrateToSplitFormat(catName, fileName)`: reads the legacy `.md` file,
and when the parsed header is non-empty writes the normalized metadata file
and then rewrites the `.md` file to the bare body, returning the metadata;
when the header is empty it returns `null` without writing.  The write trace
is returned so the on-disk ordering can be stated. -/
def migrateToSplitFormat (now : Time) (st : Store) (catName fileName : String) :
    Except String (Store × List WEv × Option ProjMeta) :=
  let baseName := replaceFirst fileName ".md" ""
  match st.readMd catName baseName with
  | none => .error "ENOENT"
  | some raw =>
    let parsed := matter raw
    if parsed.data.isEmpty then .ok (st, [], none)
    else
      let meta := migMeta now catName baseName raw
      let st1 := st.writeJson catName baseName meta
      let st2 := st1.writeMd catName baseName parsed.content
      .ok (st2, [WEv.wjson catName baseName meta, WEv.wmd catName baseName parsed.content], some meta)

/-! ## Reading a project (`readProjectFile`) -/

/-- Basename extraction used by `readProjectFile`. -/
def baseOf (fileName : String) : String :=
  replaceFirst (replaceFirst fileName ".md" "") ".json" ""

/-- `readProjectFile(catName, fileName)`: prefers the split metadata file and
attaches the body (empty when the content file is missing); otherwise migrates
the legacy file, re-reading the body after migration; on a null migration it
synthesizes a transient default record over the parsed body; fails when
neither file exists. -/
def readProjectFile (now : Time) (st : Store) (catName fileName : String) :
    Except String (Store × ProjectOut) :=
  let base := baseOf fileName
  match st.readJson catName base with
  | some meta => .ok (st, ⟨meta, (st.readMd catName base).getD ""⟩)
  | none =>
    match st.readMd catName base with
    | some raw =>
      match migrateToSplitFormat now st catName (base ++ ".md") with
      | .error e => .error e
      | .ok (st1, _, some meta) =>
        match st1.readMd catName base with
        | some c => .ok (st1, ⟨meta, c⟩)
        | none => .error "ENOENT"
      | .ok (st1, _, none) =>
        let parsed := matter raw
        .ok (st1, ⟨{ id := base, name := base, description := some "", tags := [],
                     category_id := catName, is_favorite := false, created_at := now,
                     updated_at := now, type := "text", versions := [] }, parsed.content⟩)
    | none => .error "Project not found"

/-! ## The locator -/

/-- Whether a directory is a non-hidden category containing the content or
metadata file of `id`. -/
def matchesDir (id : String) (d : Dir) : Bool :=
  !startsDot d.dname && ((lookupA id d.mds).isSome || (lookupA id d.jsons).isSome)

/-- The scan loop shared by the project routes: the name of the first
non-dot directory containing `<id>.md` or `<id>.json`. -/
def firstMatch (id : String) : List Dir → Option String
  | [] => none
  | d :: rest => if matchesDir id d then some d.dname else firstMatch id rest

/-- Resolves a project id to its category. -/
def resolveCat (st : Store) (id : String) : Option String :=
  firstMatch id st.dirs

/-- `GET /api/projects/:id`. -/
def getProject (now : Time) (st : Store) (id : String) :
    Except String (Store × ProjectOut) :=
  match resolveCat st id with
  | some cat => readProjectFile now st cat (id ++ ".md")
  | none => .error "Project not found"

/-! ## Mutating handlers -/

/-- The metadata that the handlers end up reading after the ensure-migration
step: the stored split metadata when present, otherwise the normalized record
a non-empty legacy header migrates to (`none` when neither yields metadata). -/
def effectiveMeta (now : Time) (st : Store) (cat base : String) : Option ProjMeta :=
  match st.readJson cat base with
  | some m => some m
  | none =>
    match st.readMd cat base with
    | some raw => if (matter raw).data.isEmpty then none else some (migMeta now cat base raw)
    | none => none

/-- Runs the ensure-migration step used by the favorite and version routes:
migrate whenever the metadata file is absent. -/
def ensureMigrated (now : Time) (st : Store) (cat id : String) : Except String Store :=
  if (st.readJson cat id).isSome then .ok st
  else
    match migrateToSplitFormat now st cat (id ++ ".md") with
    | .error e => .error e
    | .ok (st1, _, _) => .ok st1

/-- `POST /api/projects/:id/favorite`: locate, ensure migration, flip
`is_favorite` on the stored metadata, persist, and return the fresh read. -/
def favoriteHandler (now : Time) (st : Store) (id : String) :
    Except String (Store × ProjectOut) :=
  match resolveCat st id with
  | none => .error "Project not found"
  | some cat =>
    match ensureMigrated now st cat id with
    | .error e => .error e
    | .ok st1 =>
      match st1.readJson cat id with
      | none => .error "ENOENT"
      | some meta =>
        let meta1 := { meta with is_favorite := !meta.is_favorite }
        let st2 := st1.writeJson cat id meta1
        readProjectFile now st2 cat id

/-- The body of `PUT /api/projects/:id`; absent fields are `none`. -/
structure UpdateReq where
  name : Option String := none
  description : Option String := none
  tags : Option (List String) := none
  category_id : Option String := none
  is_favorite : Option Bool := none
  current_content : Option String := none
deriving Repr, DecidableEq

/-- The field updates of the PUT route: `if (name)` is JavaScript truthiness
(ignoring an empty string), `description`/`is_favorite` test `!== undefined`,
`tags` tests truthiness (every array is truthy), and `updated_at` is stamped. -/
def applyUpdate (m : ProjMeta) (r : UpdateReq) (now : Time) : ProjMeta :=
  let m1 := match r.name with
    | some s => if s = "" then m else { m with name := s }
    | none => m
  let m2 := match r.description with
    | some s => { m1 with description := some s }
    | none => m1
  let m3 := match r.tags with
    | some t => { m2 with tags := t }
    | none => m2
  let m4 := match r.is_favorite with
    | some b => { m3 with is_favorite := b }
    | none => m3
  { m4 with updated_at := now }

/-- `PUT /api/projects/:id`: locate the category, force migration when the
project is still in legacy form, apply the partial update, write the content
file when supplied, then either move to the requested category (writing the
metadata at the new location and moving the content file; `fs.move` fails when
the destination exists) or persist in place; returns the fresh read. -/
def putHandler (now : Time) (st : Store) (id : String) (r : UpdateReq) :
    Except String (Store × ProjectOut) :=
  match resolveCat st id with
  | none => .error "Project not found"
  | some cat =>
    let migStep : Except String Store :=
      if (st.readMd cat id).isSome && !(st.readJson cat id).isSome then
        match migrateToSplitFormat now st cat (id ++ ".md") with
        | .error e => .error e
        | .ok (st1, _, _) => .ok st1
      else .ok st
    match migStep with
    | .error e => .error e
    | .ok st1 =>
      match st1.readJson cat id with
      | none => .error "ENOENT"
      | some meta =>
        let meta1 := applyUpdate meta r now
        let st2 := match r.current_content with
          | some c => st1.writeMd cat id c
          | none => st1
        let doMove := match r.category_id with
          | some c => !(c = "") && !(c = cat)
          | none => false
        match r.category_id, doMove with
        | some newCat, true =>
          let st3 := st2.ensureDir newCat
          let meta2 := { meta1 with category_id := newCat }
          if (st3.readJson newCat id).isSome then .error "EEXIST"
          else
            let st4 := (st3.unlinkJson cat id).writeJson newCat id meta
            let mdStep : Except String Store :=
              match st4.readMd cat id with
              | some c =>
                if (st4.readMd newCat id).isSome then .error "EEXIST"
                else .ok ((st4.unlinkMd cat id).writeMd newCat id c)
              | none => .ok st4
            match mdStep with
            | .error e => .error e
            | .ok st5 =>
              let st6 := st5.writeJson newCat id meta2
              readProjectFile now st6 newCat id
        | _, _ =>
          let st3 := st2.writeJson cat id meta1
          readProjectFile now st3 cat id

/-- The scan of `DELETE /api/projects/:id`: unlink both backing files in the
first non-dot directory that contains either, and stop there. -/
def deleteLoop (id : String) : List Dir → Except String (List Dir)
  | [] => .error "Project not found"
  | d :: rest =>
    if startsDot d.dname then
      match deleteLoop id rest with
      | .error e => .error e
      | .ok r => .ok (d :: r)
    else
      if (lookupA id d.mds).isSome || (lookupA id d.jsons).isSome then
        .ok ({ d with mds := delAssoc id d.mds, jsons := delAssoc id d.jsons } :: rest)
      else
        match deleteLoop id rest with
        | .error e => .error e
        | .ok r => .ok (d :: r)

/-- `DELETE /api/projects/:id`. -/
def deleteProject (st : Store) (id : String) : Except String Store :=
  match deleteLoop id st.dirs with
  | .error e => .error e
  | .ok ds => .ok { st with dirs := ds }

/-! ## Versions -/

/-- `POST /api/projects/:id/versions`: locate, ensure migration, append a
version numbered `count + 1`, persist the metadata, and overwrite the content
file with the new content. -/
def appendVersion (now : Time) (st : Store) (id content : String)
    (parameters : Option (List (String × String))) : Except String (Store × Version) :=
  match resolveCat st id with
  | none => .error "Project not found"
  | some cat =>
    match ensureMigrated now st cat id with
    | .error e => .error e
    | .ok st1 =>
      match st1.readJson cat id with
      | none => .error "ENOENT"
      | some meta =>
        let versions := meta.versions
        let newVersion : Version :=
          ⟨now, versions.length + 1, content, parameters.getD [], now⟩
        let meta1 := { meta with versions := versions ++ [newVersion], updated_at := now }
        let st2 := st1.writeJson cat id meta1
        let st3 := st2.writeMd cat id content
        .ok (st3, newVersion)

/-- Comparator of the version list route: sorted by `version_num` descending. -/
def versionBefore (a b : Version) : Bool := decide (b.version_num ≤ a.version_num)

/-- Stable insertion used to model `Array.prototype.sort` (which is stable):
`bef x y` states that `x` may stay in front of `y`. -/
def insertStable (bef : α → α → Bool) (x : α) : List α → List α
  | [] => [x]
  | y :: ys => if bef x y then x :: y :: ys else y :: insertStable bef x ys

/-- Stable sort by the comparator `bef`. -/
def sortStable (bef : α → α → Bool) : List α → List α
  | [] => []
  | x :: xs => insertStable bef x (sortStable bef xs)

/-- `GET /api/projects/:id/versions`: locate, load (or migrate to) the
metadata, and return its versions sorted by `version_num` descending. -/
def listVersions (now : Time) (st : Store) (id : String) :
    Except String (Store × List Version) :=
  match resolveCat st id with
  | none => .error "Project not found"
  | some cat =>
    match st.readJson cat id with
    | some meta => .ok (st, sortStable versionBefore meta.versions)
    | none =>
      match migrateToSplitFormat now st cat (id ++ ".md") with
      | .error e => .error e
      | .ok (st1, _, mo) =>
        let vs := match mo with
          | some m => m.versions
          | none => []
        .ok (st1, sortStable versionBefore vs)

/-! ## Categories -/

/-- Merges a sidecar (when present) over the defaults
`id = dirname, name = dirname, color = blue, icon = null, sort_order = 99`
(object spread: a key present in the sidecar overrides the default). -/
def mergeCatMeta (dn : String) (o : Option CatMetaFile) : CategoryOut :=
  match o with
  | none => ⟨dn, dn, "blue", none, 99⟩
  | some f => ⟨f.id.getD dn, f.name.getD dn, f.color.getD "blue", f.icon.getD none,
               f.sort_order.getD 99⟩

/-- Comparator of the category list route: `sort_order` ascending. -/
def catBefore (a b : CategoryOut) : Bool := decide (a.sort_order ≤ b.sort_order)

/-- `GET /api/categories`: the non-dot directories, each merged over the
defaults, sorted by `sort_order` ascending. -/
def listCategories (st : Store) : List CategoryOut :=
  sortStable catBefore
    ((st.dirs.filter (fun d => !startsDot d.dname)).map (fun d => mergeCatMeta d.dname d.catMeta))

/-- `POST /api/categories`: validates the name, rejects when a top-level entry
with that name already exists (`fs.pathExists` is true for plain files too),
otherwise creates the directory and writes the sidecar with
`sort_order = Date.now()`. -/
def createCategory (now : Time) (st : Store) (nm : String) (color icon : Option String) :
    Except String (Store × CategoryOut) :=
  if nm = "" then .error "Name is required"
  else if (st.findDir nm).isSome || st.topFiles.contains nm then
    .error "Category already exists"
  else
    let colorV := jsOrS color "blue"
    let iconV : Option String := match icon with
      | some s => if s = "" then none else some s
      | none => none
    let cm : CatMetaFile := ⟨some nm, some nm, some colorV, some iconV, some (Int.ofNat now)⟩
    .ok ({ st with dirs := st.dirs ++ [⟨nm, some cm, [], []⟩] },
         ⟨nm, nm, colorV, iconV, Int.ofNat now⟩)

/-! ## Project listing (`GET /api/projects`) -/

/-- Substring test modelling `String.prototype.includes`. -/
def jsIncludes (hay needle : String) : Bool :=
  needle = "" || (findSplit needle.data hay.data).isSome

/-- Lower-casing for the search filter. -/
def lowerStr (s : String) : String := String.mk (s.data.map Char.toLower)

/-- The search filter of the listing: truthy name, description or content
containing the lower-cased query. -/
def matchesSearch (q : String) (p : ProjectOut) : Bool :=
  let lq := lowerStr q
  (!(p.meta.name = "") && jsIncludes (lowerStr p.meta.name) lq) ||
  (match p.meta.description with
   | some dd => !(dd = "") && jsIncludes (lowerStr dd) lq
   | none => false) ||
  (!(p.current_content = "") && jsIncludes (lowerStr p.current_content) lq)

/-- Comparator of the listing: `updated_at` descending. -/
def projBefore (a b : ProjectOut) : Bool :=
  decide (b.meta.updated_at ≤ a.meta.updated_at)

/-- Reads a list of `(category, basename)` pairs in order, threading the store
through the possible lazy migrations. -/
def readPairs (now : Time) (st : Store) : List (String × String) →
    Except String (Store × List ProjectOut)
  | [] => .ok (st, [])
  | p :: rest =>
    match readProjectFile now st p.1 (p.2 ++ ".md") with
    | .error e => .error e
    | .ok (st1, po) =>
      match readPairs now st1 rest with
      | .error e => .error e
      | .ok (st2, ps) => .ok (st2, po :: ps)

/-- The directory loop of the listing: for every candidate category that is an
existing directory, read every `.md` file it contains. -/
def listDirsLoop (now : Time) (st : Store) : List String →
    Except String (Store × List ProjectOut)
  | [] => .ok (st, [])
  | c :: cs =>
    match st.findDir c with
    | none => listDirsLoop now st cs
    | some d =>
      match readPairs now st (d.mds.map (fun p => (c, p.1))) with
      | .error e => .error e
      | .ok (st1, ps) =>
        match listDirsLoop now st1 cs with
        | .error e => .error e
        | .ok (st2, ps2) => .ok (st2, ps ++ ps2)

/-- `GET /api/projects`: search one named category or every non-dot directory,
collect the `.md`-backed projects, apply the optional favorite and search
filters, and sort by `updated_at` descending. -/
def listProjects (now : Time) (st : Store) (category_id : Option String)
    (favOnly : Bool) (search : Option String) :
    Except String (Store × List ProjectOut) :=
  let cats := match category_id with
    | some c => [c]
    | none => (st.dirs.map (fun d => d.dname)).filter (fun n => !startsDot n)
  match listDirsLoop now st cats with
  | .error e => .error e
  | .ok (st1, ps) =>
    let ps1 := if favOnly then ps.filter (fun p => p.meta.is_favorite) else ps
    let ps2 := match search with
      | some q => ps1.filter (matchesSearch q)
      | none => ps1
    .ok (st1, sortStable projBefore ps2)

/-- The `(category, basename)` pairs contributed by one candidate category. -/
def pairsOf (st : Store) (c : String) : List (String × String) :=
  match st.findDir c with
  | some d => d.mds.map (fun p => (c, p.1))
  | none => []

/-- The `(category, basename)` pairs the listing enumerates, read off the
store before any lazy migration runs. -/
def listingBases (st : Store) (category_id : Option String) : List (String × String) :=
  let cats : List String := match category_id with
    | some c => [c]
    | none => (st.dirs.map (fun d => d.dname)).filter (fun n => !startsDot n)
  (cats.map (pairsOf st)).flatten

/-! ## Small executable helpers for counterexamples -/

/-- Whether a handler result is a success. -/
def okB : Except String α → Bool
  | .ok _ => true
  | .error _ => false

/-- The success value of a handler result. -/
def okVal : Except String α → Option α
  | .ok a => some a
  | .error _ => none

/-! ## Lemmas about the stable sort -/

theorem insertStable_perm (bef : α → α → Bool) (x : α) (l : List α) :
    (insertStable bef x l).Perm (x :: l) := by
  induction l with
  | nil => simp [insertStable]
  | cons y ys ih =>
    simp only [insertStable]
    split
    · exact List.Perm.refl _
    · exact (ih.cons y).trans (List.Perm.swap x y ys)

theorem sortStable_perm (bef : α → α → Bool) (l : List α) :
    (sortStable bef l).Perm l := by
  induction l with
  | nil => simp [sortStable]
  | cons x xs ih => exact (insertStable_perm bef x (sortStable bef xs)).trans (ih.cons x)

theorem mem_sortStable (bef : α → α → Bool) (l : List α) (a : α) :
    a ∈ sortStable bef l ↔ a ∈ l :=
  (sortStable_perm bef l).mem_iff

theorem mem_insertStable (bef : α → α → Bool) (x : α) (l : List α) (a : α) :
    a ∈ insertStable bef x l ↔ a = x ∨ a ∈ l := by
  rw [(insertStable_perm bef x l).mem_iff]
  simp

theorem pairwise_insertStable (bef : α → α → Bool)
    (htot : ∀ a b, bef a b = true ∨ bef b a = true)
    (htr : ∀ a b c, bef a b = true → bef b c = true → bef a c = true)
    (x : α) (l : List α) (hl : l.Pairwise (fun a b => bef a b = true)) :
    (insertStable bef x l).Pairwise (fun a b => bef a b = true) := by
  induction l with
  | nil => simp [insertStable]
  | cons y ys ih =>
    rcases hl with _ | ⟨hy, hys⟩
    simp only [insertStable]
    split
    · rename_i hxy
      refine List.Pairwise.cons ?_ (List.Pairwise.cons hy hys)
      intro z hz
      rcases List.mem_cons.mp hz with rfl | hz
      · exact hxy
      · exact htr x y z hxy (hy z hz)
    · rename_i hxy
      refine List.Pairwise.cons ?_ (ih hys)
      intro z hz
      rw [mem_insertStable] at hz
      rcases hz with rfl | hz
      · rcases htot y z with h | h
        · exact h
        · exact absurd h hxy
      · exact hy z hz

theorem pairwise_sortStable (bef : α → α → Bool)
    (htot : ∀ a b, bef a b = true ∨ bef b a = true)
    (htr : ∀ a b c, bef a b = true → bef b c = true → bef a c = true)
    (l : List α) :
    (sortStable bef l).Pairwise (fun a b => bef a b = true) := by
  induction l with
  | nil => simp [sortStable]
  | cons x xs ih => exact pairwise_insertStable bef htot htr x _ ih

theorem head_sortStable (bef : α → α → Bool) (l : List α) (x : α)
    (htot : ∀ a b, bef a b = true ∨ bef b a = true)
    (htr : ∀ a b c, bef a b = true → bef b c = true → bef a c = true)
    (hx : x ∈ l) (hmax : ∀ y ∈ l, y ≠ x → bef y x = false) :
    (sortStable bef l).head? = some x := by
  have hperm := sortStable_perm bef l
  have hpw := pairwise_sortStable bef htot htr l
  cases e : sortStable bef l with
  | nil =>
    rw [e] at hperm
    exact absurd (hperm.symm.mem_iff.mp hx) (List.not_mem_nil x)
  | cons h t =>
    rw [e] at hperm hpw
    by_cases hhx : h = x
    · simp [hhx]
    · have hxm : x ∈ h :: t := hperm.symm.mem_iff.mp hx
      rcases List.mem_cons.mp hxm with rfl | hxt
      · exact absurd rfl hhx
      · rcases hpw with _ | ⟨hhd, _⟩
        have hbef : bef h x = true := hhd x hxt
        have hhl : h ∈ l := hperm.mem_iff.mp (List.mem_cons_self h t)
        have := hmax h hhl hhx
        rw [this] at hbef
        exact absurd hbef (by simp)

/-! ## Lemmas about the filesystem primitives -/

theorem lookupA_setAssoc_self (k : String) (v : β) (l : List (String × β)) :
    lookupA k (setAssoc k v l) = some v := by
  induction l with
  | nil => simp [setAssoc, lookupA]
  | cons p rest ih =>
    rcases p with ⟨k1, v1⟩
    simp only [setAssoc]
    split
    · simp [lookupA]
    · simp only [lookupA]
      split
      · rename_i h1 h2
        exact absurd h2 h1
      · exact ih

theorem lookupA_setAssoc_ne (k k2 : String) (v : β) (l : List (String × β))
    (h : k2 ≠ k) : lookupA k2 (setAssoc k v l) = lookupA k2 l := by
  induction l with
  | nil => simp [setAssoc, lookupA, Ne.symm h]
  | cons p rest ih =>
    rcases p with ⟨k1, v1⟩
    simp only [setAssoc]
    split
    · rename_i hk
      subst hk
      simp [lookupA, h, Ne.symm h]
    · simp only [lookupA]
      split
      · rfl
      · exact ih

theorem lookupA_delAssoc_self (k : String) (l : List (String × β)) :
    lookupA k (delAssoc k l) = none := by
  induction l with
  | nil => simp [delAssoc, lookupA]
  | cons p rest ih =>
    rcases p with ⟨k1, v1⟩
    simp only [delAssoc]
    split
    · exact ih
    · rename_i hk
      simpa [lookupA, hk] using ih

theorem setAssoc_keys_of_mem (k : String) (v : β) (l : List (String × β))
    (h : (lookupA k l).isSome) :
    (setAssoc k v l).map Prod.fst = l.map Prod.fst := by
  induction l with
  | nil => simp [lookupA] at h
  | cons p rest ih =>
    rcases p with ⟨k1, v1⟩
    simp only [setAssoc]
    split
    · rename_i hk
      simp [hk]
    · rename_i hk
      simp only [lookupA, hk, if_neg] at h
      simp [ih h]

theorem findDirL_updFirst_self (n : String) (f : Dir → Dir)
    (hf : ∀ d, (f d).dname = d.dname) (ds : List Dir) :
    findDirL n (updFirst n f ds) = (findDirL n ds).map f := by
  induction ds with
  | nil => simp [updFirst, findDirL]
  | cons d rest ih =>
    simp only [updFirst]
    split
    · rename_i hd
      simp [findDirL, hf, hd]
    · rename_i hd
      simp only [findDirL, hd, if_neg]
      simpa [findDirL, hd] using ih

theorem findDirL_updFirst_ne (n m : String) (f : Dir → Dir)
    (hf : ∀ d, (f d).dname = d.dname) (ds : List Dir) (hnm : m ≠ n) :
    findDirL m (updFirst n f ds) = findDirL m ds := by
  induction ds with
  | nil => simp [updFirst, findDirL]
  | cons d rest ih =>
    simp only [updFirst]
    split
    · rename_i hd
      have : (f d).dname = d.dname := hf d
      simp [findDirL, this, hd, Ne.symm hnm]
    · simp only [findDirL]
      split
      · rfl
      · exact ih

theorem findDirL_dname (n : String) (ds : List Dir) (d : Dir)
    (h : findDirL n ds = some d) : d.dname = n := by
  induction ds with
  | nil => simp [findDirL] at h
  | cons d1 rest ih =>
    simp only [findDirL] at h
    split at h
    · cases h
      assumption
    · exact ih h

/-! ### Read/write lemmas at the store level

Every write targets one directory by name and preserves directory names, so
each lemma follows from the `updFirst` lemmas. -/

theorem readJson_writeJson_self (st : Store) (c b : String) (m : ProjMeta)
    (hd : (st.findDir c).isSome) :
    (st.writeJson c b m).readJson c b = some m := by
  have h := findDirL_updFirst_self c (fun d => { d with jsons := setAssoc b m d.jsons })
    (fun d => rfl) st.dirs
  simp only [Store.readJson, Store.writeJson, Store.findDir] at *
  rw [h]
  cases e : findDirL c st.dirs with
  | none => rw [e] at hd; simp at hd
  | some d => simp [lookupA_setAssoc_self]

theorem readJson_writeJson_ne (st : Store) (c b : String) (m : ProjMeta)
    (c2 b2 : String) (h : c2 ≠ c ∨ b2 ≠ b) :
    (st.writeJson c b m).readJson c2 b2 = st.readJson c2 b2 := by
  by_cases hc : c2 = c
  · subst hc
    have hb : b2 ≠ b := h.resolve_left (fun hx => hx rfl)
    have hfd := findDirL_updFirst_self c2 (fun d => { d with jsons := setAssoc b m d.jsons })
      (fun d => rfl) st.dirs
    simp only [Store.readJson, Store.writeJson, Store.findDir] at *
    rw [hfd]
    cases findDirL c2 st.dirs with
    | none => rfl
    | some d => simp [lookupA_setAssoc_ne b b2 m d.jsons hb]
  · have hfd := findDirL_updFirst_ne c c2 (fun d => { d with jsons := setAssoc b m d.jsons })
      (fun d => rfl) st.dirs hc
    simp only [Store.readJson, Store.writeJson, Store.findDir] at *
    rw [hfd]

theorem readMd_writeJson (st : Store) (c b : String) (m : ProjMeta) (c2 b2 : String) :
    (st.writeJson c b m).readMd c2 b2 = st.readMd c2 b2 := by
  by_cases hc : c2 = c
  · subst hc
    have hfd := findDirL_updFirst_self c2 (fun d => { d with jsons := setAssoc b m d.jsons })
      (fun d => rfl) st.dirs
    simp only [Store.readMd, Store.writeJson, Store.findDir] at *
    rw [hfd]
    cases findDirL c2 st.dirs with
    | none => rfl
    | some d => rfl
  · have hfd := findDirL_updFirst_ne c c2 (fun d => { d with jsons := setAssoc b m d.jsons })
      (fun d => rfl) st.dirs hc
    simp only [Store.readMd, Store.writeJson, Store.findDir] at *
    rw [hfd]

theorem readMd_writeMd_self (st : Store) (c b v : String)
    (hd : (st.findDir c).isSome) :
    (st.writeMd c b v).readMd c b = some v := by
  have h := findDirL_updFirst_self c (fun d => { d with mds := setAssoc b v d.mds })
    (fun d => rfl) st.dirs
  simp only [Store.readMd, Store.writeMd, Store.findDir] at *
  rw [h]
  cases e : findDirL c st.dirs with
  | none => rw [e] at hd; simp at hd
  | some d => simp [lookupA_setAssoc_self]

theorem readMd_writeMd_ne (st : Store) (c b v : String)
    (c2 b2 : String) (h : c2 ≠ c ∨ b2 ≠ b) :
    (st.writeMd c b v).readMd c2 b2 = st.readMd c2 b2 := by
  by_cases hc : c2 = c
  · subst hc
    have hb : b2 ≠ b := h.resolve_left (fun hx => hx rfl)
    have hfd := findDirL_updFirst_self c2 (fun d => { d with mds := setAssoc b v d.mds })
      (fun d => rfl) st.dirs
    simp only [Store.readMd, Store.writeMd, Store.findDir] at *
    rw [hfd]
    cases findDirL c2 st.dirs with
    | none => rfl
    | some d => simp [lookupA_setAssoc_ne b b2 v d.mds hb]
  · have hfd := findDirL_updFirst_ne c c2 (fun d => { d with mds := setAssoc b v d.mds })
      (fun d => rfl) st.dirs hc
    simp only [Store.readMd, Store.writeMd, Store.findDir] at *
    rw [hfd]

theorem readJson_writeMd (st : Store) (c b v : String) (c2 b2 : String) :
    (st.writeMd c b v).readJson c2 b2 = st.readJson c2 b2 := by
  by_cases hc : c2 = c
  · subst hc
    have hfd := findDirL_updFirst_self c2 (fun d => { d with mds := setAssoc b v d.mds })
      (fun d => rfl) st.dirs
    simp only [Store.readJson, Store.writeMd, Store.findDir] at *
    rw [hfd]
    cases findDirL c2 st.dirs with
    | none => rfl
    | some d => rfl
  · have hfd := findDirL_updFirst_ne c c2 (fun d => { d with mds := setAssoc b v d.mds })
      (fun d => rfl) st.dirs hc
    simp only [Store.readJson, Store.writeMd, Store.findDir] at *
    rw [hfd]

theorem readJson_unlinkJson_self (st : Store) (c b : String) :
    (st.unlinkJson c b).readJson c b = none := by
  have h := findDirL_updFirst_self c (fun d => { d with jsons := delAssoc b d.jsons })
    (fun d => rfl) st.dirs
  simp only [Store.readJson, Store.unlinkJson, Store.findDir] at *
  rw [h]
  cases findDirL c st.dirs with
  | none => rfl
  | some d => simp [lookupA_delAssoc_self]

theorem readJson_unlinkJson_ne (st : Store) (c b : String) (c2 b2 : String)
    (h : c2 ≠ c) :
    (st.unlinkJson c b).readJson c2 b2 = st.readJson c2 b2 := by
  have hfd := findDirL_updFirst_ne c c2 (fun d => { d with jsons := delAssoc b d.jsons })
    (fun d => rfl) st.dirs h
  simp only [Store.readJson, Store.unlinkJson, Store.findDir] at *
  rw [hfd]

theorem readMd_unlinkJson (st : Store) (c b : String) (c2 b2 : String) :
    (st.unlinkJson c b).readMd c2 b2 = st.readMd c2 b2 := by
  by_cases hc : c2 = c
  · subst hc
    have hfd := findDirL_updFirst_self c2 (fun d => { d with jsons := delAssoc b d.jsons })
      (fun d => rfl) st.dirs
    simp only [Store.readMd, Store.unlinkJson, Store.findDir] at *
    rw [hfd]
    cases findDirL c2 st.dirs with
    | none => rfl
    | some d => rfl
  · have hfd := findDirL_updFirst_ne c c2 (fun d => { d with jsons := delAssoc b d.jsons })
      (fun d => rfl) st.dirs hc
    simp only [Store.readMd, Store.unlinkJson, Store.findDir] at *
    rw [hfd]

theorem readMd_unlinkMd_self (st : Store) (c b : String) :
    (st.unlinkMd c b).readMd c b = none := by
  have h := findDirL_updFirst_self c (fun d => { d with mds := delAssoc b d.mds })
    (fun d => rfl) st.dirs
  simp only [Store.readMd, Store.unlinkMd, Store.findDir] at *
  rw [h]
  cases findDirL c st.dirs with
  | none => rfl
  | some d => simp [lookupA_delAssoc_self]

theorem readMd_unlinkMd_ne (st : Store) (c b : String) (c2 b2 : String)
    (h : c2 ≠ c) :
    (st.unlinkMd c b).readMd c2 b2 = st.readMd c2 b2 := by
  have hfd := findDirL_updFirst_ne c c2 (fun d => { d with mds := delAssoc b d.mds })
    (fun d => rfl) st.dirs h
  simp only [Store.readMd, Store.unlinkMd, Store.findDir] at *
  rw [hfd]

theorem readJson_unlinkMd (st : Store) (c b : String) (c2 b2 : String) :
    (st.unlinkMd c b).readJson c2 b2 = st.readJson c2 b2 := by
  by_cases hc : c2 = c
  · subst hc
    have hfd := findDirL_updFirst_self c2 (fun d => { d with mds := delAssoc b d.mds })
      (fun d => rfl) st.dirs
    simp only [Store.readJson, Store.unlinkMd, Store.findDir] at *
    rw [hfd]
    cases findDirL c2 st.dirs with
    | none => rfl
    | some d => rfl
  · have hfd := findDirL_updFirst_ne c c2 (fun d => { d with mds := delAssoc b d.mds })
      (fun d => rfl) st.dirs hc
    simp only [Store.readJson, Store.unlinkMd, Store.findDir] at *
    rw [hfd]

theorem findDirL_append_ne (n : String) (ds : List Dir) (d1 : Dir)
    (h : d1.dname ≠ n) : findDirL n (ds ++ [d1]) = findDirL n ds := by
  induction ds with
  | nil => simp [findDirL, h]
  | cons d rest ih =>
    simp only [findDirL, List.cons_append]
    split
    · rfl
    · exact ih

theorem findDirL_append_of_none (n : String) (ds : List Dir) (d1 : Dir)
    (h : findDirL n ds = none) : findDirL n (ds ++ [d1]) = findDirL n [d1] := by
  induction ds with
  | nil => simp
  | cons d rest ih =>
    simp only [findDirL, List.cons_append] at h ⊢
    split at h
    · exact Option.noConfusion h
    · rename_i hd
      rw [if_neg hd]
      exact ih h

theorem readJson_ensureDir (st : Store) (n : String) (c2 b2 : String) :
    (st.ensureDir n).readJson c2 b2 = st.readJson c2 b2 := by
  simp only [Store.ensureDir]
  split
  · rfl
  · rename_i hn
    simp only [Store.readJson, Store.findDir]
    by_cases hc : c2 = n
    · subst hc
      simp only [Store.findDir] at hn
      cases e : findDirL c2 st.dirs with
      | none =>
        rw [findDirL_append_of_none c2 st.dirs ⟨c2, none, [], []⟩ e]
        simp [findDirL, lookupA]
      | some d => rw [e] at hn; simp at hn
    · rw [findDirL_append_ne c2 st.dirs ⟨n, none, [], []⟩ (fun hx => hc hx.symm)]

theorem readMd_ensureDir (st : Store) (n : String) (c2 b2 : String) :
    (st.ensureDir n).readMd c2 b2 = st.readMd c2 b2 := by
  simp only [Store.ensureDir]
  split
  · rfl
  · rename_i hn
    simp only [Store.readMd, Store.findDir]
    by_cases hc : c2 = n
    · subst hc
      simp only [Store.findDir] at hn
      cases e : findDirL c2 st.dirs with
      | none =>
        rw [findDirL_append_of_none c2 st.dirs ⟨c2, none, [], []⟩ e]
        simp [findDirL, lookupA]
      | some d => rw [e] at hn; simp at hn
    · rw [findDirL_append_ne c2 st.dirs ⟨n, none, [], []⟩ (fun hx => hc hx.symm)]

theorem findDir_ensureDir_self (st : Store) (n : String) :
    ((st.ensureDir n).findDir n).isSome := by
  simp only [Store.ensureDir]
  split
  · assumption
  · rename_i hn
    simp only [Store.findDir] at hn ⊢
    cases e : findDirL n st.dirs with
    | none =>
      rw [findDirL_append_of_none n st.dirs ⟨n, none, [], []⟩ e]
      simp [findDirL]
    | some d => rw [e] at hn; simp at hn

theorem findDir_isSome_of_readMd (st : Store) (c b : String) (v : String)
    (h : st.readMd c b = some v) : (st.findDir c).isSome := by
  simp only [Store.readMd] at h
  cases e : st.findDir c with
  | none => rw [e] at h; exact Option.noConfusion h
  | some d => simp

theorem findDir_isSome_of_readJson (st : Store) (c b : String) (m : ProjMeta)
    (h : st.readJson c b = some m) : (st.findDir c).isSome := by
  simp only [Store.readJson] at h
  cases e : st.findDir c with
  | none => rw [e] at h; exact Option.noConfusion h
  | some d => simp

theorem findDirL_updFirst_isSome (n m : String) (f : Dir → Dir)
    (hf : ∀ d, (f d).dname = d.dname) (ds : List Dir) :
    (findDirL m (updFirst n f ds)).isSome = (findDirL m ds).isSome := by
  by_cases hm : m = n
  · subst hm
    rw [findDirL_updFirst_self m f hf ds]
    cases findDirL m ds <;> rfl
  · rw [findDirL_updFirst_ne n m f hf ds hm]

theorem findDir_writeJson_isSome (st : Store) (c b : String) (m : ProjMeta)
    (n : String) : ((st.writeJson c b m).findDir n).isSome = ((st.findDir n)).isSome := by
  simp only [Store.writeJson, Store.findDir]
  exact findDirL_updFirst_isSome c n
    (fun d => { d with jsons := setAssoc b m d.jsons }) (fun d => rfl) st.dirs

theorem findDir_writeMd_isSome (st : Store) (c b v : String)
    (n : String) : ((st.writeMd c b v).findDir n).isSome = ((st.findDir n)).isSome := by
  simp only [Store.writeMd, Store.findDir]
  exact findDirL_updFirst_isSome c n
    (fun d => { d with mds := setAssoc b v d.mds }) (fun d => rfl) st.dirs

/-! ## Lemmas about the locator scan -/

theorem firstMatch_nonDot (id : String) (ds : List Dir) (c : String)
    (h : firstMatch id ds = some c) : startsDot c = false := by
  induction ds with
  | nil => exact Option.noConfusion h
  | cons d rest ih =>
    simp only [firstMatch] at h
    split at h
    · rename_i hm
      cases h
      simp only [matchesDir, Bool.and_eq_true, Bool.not_eq_true'] at hm
      exact hm.1
    · exact ih h

theorem firstMatch_split (id : String) (ds : List Dir) (c : String)
    (h : firstMatch id ds = some c) :
    ∃ pre d post, ds = pre ++ d :: post ∧ d.dname = c ∧ matchesDir id d = true ∧
      ∀ d2 ∈ pre, matchesDir id d2 = false := by
  induction ds with
  | nil => exact Option.noConfusion h
  | cons d rest ih =>
    simp only [firstMatch] at h
    split at h
    · rename_i hm
      cases h
      exact ⟨[], d, rest, rfl, rfl, hm, by simp⟩
    · rename_i hm
      obtain ⟨pre, d0, post, hsplit, hname, hmatch, hpre⟩ := ih h
      refine ⟨d :: pre, d0, post, by rw [hsplit]; rfl, hname, hmatch, ?_⟩
      intro d2 hd2
      rcases List.mem_cons.mp hd2 with rfl | hd2
      · exact Bool.eq_false_iff.mpr hm
      · exact hpre d2 hd2

theorem firstMatch_of_split (id : String) (pre : List Dir) (d : Dir) (post : List Dir)
    (hpre : ∀ d2 ∈ pre, matchesDir id d2 = false)
    (hd : matchesDir id d = true) :
    firstMatch id (pre ++ d :: post) = some d.dname := by
  induction pre with
  | nil => simp [firstMatch, hd]
  | cons p rest ih =>
    have hp : matchesDir id p = false := hpre p (List.mem_cons_self p rest)
    simp only [List.cons_append, firstMatch, hp]
    simp only [Bool.false_eq_true, if_false]
    exact ih (fun d2 hd2 => hpre d2 (List.mem_cons_of_mem p hd2))

theorem firstMatch_none_iff (id : String) (ds : List Dir) :
    firstMatch id ds = none ↔ ∀ d ∈ ds, matchesDir id d = false := by
  induction ds with
  | nil => simp [firstMatch]
  | cons d rest ih =>
    simp only [firstMatch]
    constructor
    · intro h
      split at h
      · exact Option.noConfusion h
      · rename_i hm
        intro d2 hd2
        rcases List.mem_cons.mp hd2 with rfl | hd2
        · exact Bool.eq_false_iff.mpr hm
        · exact (ih.mp h) d2 hd2
    · intro h
      rw [if_neg]
      · exact ih.mpr (fun d2 hd2 => h d2 (List.mem_cons_of_mem d hd2))
      · rw [h d (List.mem_cons_self d rest)]
        simp

/-- Claim C5: for every id, the locator enumerates the top-level directories
in order, skipping those whose name starts with a dot, and returns the first
category in which the metadata file or the content file named `id` exists
(`matchesDir`); when no such category exists, it returns no category and the
single-project route fails with the NotFound error. -/
theorem resolve_first_match (now : Time) (st : Store) (id : String) :
    (∀ c, resolveCat st id = some c ↔
      ∃ pre d post, st.dirs = pre ++ d :: post ∧ d.dname = c ∧ matchesDir id d = true ∧
        ∀ d2 ∈ pre, matchesDir id d2 = false) ∧
    (resolveCat st id = none ↔ ∀ d ∈ st.dirs, matchesDir id d = false) ∧
    (resolveCat st id = none → getProject now st id = .error "Project not found") := by
  refine ⟨?_, ?_, ?_⟩
  · intro c
    constructor
    · intro h
      exact firstMatch_split id st.dirs c h
    · rintro ⟨pre, d, post, hsplit, rfl, hmatch, hpre⟩
      rw [resolveCat, hsplit]
      exact firstMatch_of_split id pre d post hpre hmatch
  · exact firstMatch_none_iff id st.dirs
  · intro h
    simp [getProject, resolveCat] at h ⊢
    rw [h]

/-- Witness for C5 on a concrete store: a dot-directory holding the file is
skipped and the second directory is returned. -/
theorem resolve_first_match_witness :
    resolveCat ⟨[⟨".hid", none, [("p", "x")], []⟩, ⟨"c", none, [("p", "x")], []⟩], []⟩ "p" =
      some "c" := by
  have h := (resolve_first_match 0
    ⟨[⟨".hid", none, [("p", "x")], []⟩, ⟨"c", none, [("p", "x")], []⟩], []⟩ "p").1 "c"
  exact h.mpr ⟨[⟨".hid", none, [("p", "x")], []⟩], ⟨"c", none, [("p", "x")], []⟩, [],
    rfl, rfl, by decide, by decide⟩

/-- Claim C2: migrating a legacy content file whose parsed header is non-empty
builds the normalized metadata (id and name default to the basename when
absent, tags to the empty list, is_favorite to false, versions to the empty
list), performs exactly the write of the new metadata file followed by the
rewrite of the content file to the bare body, and returns the metadata; when
the header is empty it returns null and performs no write, leaving the store
unchanged. -/
theorem migrate_spec (now : Time) (st : Store) (cat fn raw base : String)
    (hb : replaceFirst fn ".md" "" = base)
    (hmd : st.readMd cat base = some raw) :
    ((matter raw).data.isEmpty = true →
      migrateToSplitFormat now st cat fn = .ok (st, [], none)) ∧
    ((matter raw).data.isEmpty = false →
      ∃ st2, migrateToSplitFormat now st cat fn =
          .ok (st2,
            [WEv.wjson cat base (migMeta now cat base raw),
             WEv.wmd cat base (matter raw).content],
            some (migMeta now cat base raw)) ∧
        st2.readJson cat base = some (migMeta now cat base raw) ∧
        st2.readMd cat base = some (matter raw).content) ∧
    ((matter raw).data.id = none → (migMeta now cat base raw).id = base) ∧
    ((matter raw).data.name = none → (migMeta now cat base raw).name = base) ∧
    ((matter raw).data.tags = none → (migMeta now cat base raw).tags = []) ∧
    ((matter raw).data.is_favorite = none → (migMeta now cat base raw).is_favorite = false) ∧
    ((matter raw).data.versions = none → (migMeta now cat base raw).versions = []) := by
  have hfd : (st.findDir cat).isSome := findDir_isSome_of_readMd st cat base raw hmd
  refine ⟨?_, ?_, ?_, ?_, ?_, ?_, ?_⟩
  · intro hemp
    simp only [migrateToSplitFormat, hb, hmd, hemp]
    rfl
  · intro hemp
    refine ⟨(st.writeJson cat base (migMeta now cat base raw)).writeMd cat base
      (matter raw).content, ?_, ?_, ?_⟩
    · simp only [migrateToSplitFormat, hb, hmd, hemp]
      rfl
    · rw [readJson_writeMd]
      exact readJson_writeJson_self st cat base (migMeta now cat base raw) hfd
    · apply readMd_writeMd_self
      rw [findDir_writeJson_isSome]
      exact hfd
  · intro h
    simp [migMeta, h, jsOrS]
  · intro h
    simp [migMeta, h, jsOrS]
  · intro h
    simp [migMeta, h]
  · intro h
    simp [migMeta, h]
  · intro h
    simp [migMeta, h]

/-- Witness for C2 on a concrete legacy file with header name and tags: both
cases of the theorem are discharged at this input (the header here is
non-empty, so the second branch produces the migrated store). -/
theorem migrate_spec_witness :
    (matter "---\nname: Old\ntags: [a, b]\n---\nHello").data.isEmpty = false ∧
    ∃ st2, migrateToSplitFormat 5
        ⟨[⟨"c", none, [("old", "---\nname: Old\ntags: [a, b]\n---\nHello")], []⟩], []⟩
        "c" "old.md" =
        .ok (st2,
          [WEv.wjson "c" "old"
            (migMeta 5 "c" "old" "---\nname: Old\ntags: [a, b]\n---\nHello"),
           WEv.wmd "c" "old" (matter "---\nname: Old\ntags: [a, b]\n---\nHello").content],
          some (migMeta 5 "c" "old" "---\nname: Old\ntags: [a, b]\n---\nHello")) ∧
      st2.readJson "c" "old" =
        some (migMeta 5 "c" "old" "---\nname: Old\ntags: [a, b]\n---\nHello") ∧
      st2.readMd "c" "old" = some (matter "---\nname: Old\ntags: [a, b]\n---\nHello").content := by
  refine ⟨by decide, ?_⟩
  exact (migrate_spec 5
    ⟨[⟨"c", none, [("old", "---\nname: Old\ntags: [a, b]\n---\nHello")], []⟩], []⟩
    "c" "old.md" "---\nname: Old\ntags: [a, b]\n---\nHello" "old"
    (by decide) (by decide)).2.1 (by decide)

/-- Claim C4 (amended): for every category and id, read returns the loaded
metadata with the content file body attached (empty string when the content
file is missing) when the metadata file exists; otherwise it attempts
migration and, on a null migration result, returns a freshly synthesized
non-persisted default record whose content is the content-file body with the
(empty) header block stripped — which equals the raw body exactly when the
file opens with no header delimiters; and read fails with NotFound exactly
when neither the metadata file nor the content file exists. -/
theorem readProject_cases (now : Time) (st : Store) (cat fn base : String)
    (hb : baseOf fn = base)
    (hb2 : replaceFirst (base ++ ".md") ".md" "" = base) :
    (∀ m, st.readJson cat base = some m →
      readProjectFile now st cat fn = .ok (st, ⟨m, (st.readMd cat base).getD ""⟩)) ∧
    (∀ raw, st.readJson cat base = none → st.readMd cat base = some raw →
      (((matter raw).data.isEmpty = false →
        ∃ st1, readProjectFile now st cat fn =
          .ok (st1, ⟨migMeta now cat base raw, (matter raw).content⟩)) ∧
       ((matter raw).data.isEmpty = true →
        readProjectFile now st cat fn =
          .ok (st, ⟨⟨base, base, some "", [], cat, false, now, now, "text", []⟩,
                    (matter raw).content⟩)))) ∧
    (st.readJson cat base = none → st.readMd cat base = none →
      readProjectFile now st cat fn = .error "Project not found") ∧
    (readProjectFile now st cat fn = .error "Project not found" →
      st.readJson cat base = none ∧ st.readMd cat base = none) := by
  refine ⟨?_, ?_, ?_, ?_⟩
  · intro m hj
    simp only [readProjectFile, hb, hj]
  · intro raw hj hmd
    have hfd : (st.findDir cat).isSome := findDir_isSome_of_readMd st cat base raw hmd
    constructor
    · intro hemp
      refine ⟨(st.writeJson cat base (migMeta now cat base raw)).writeMd cat base
        (matter raw).content, ?_⟩
      have hmig : migrateToSplitFormat now st cat (base ++ ".md") =
          .ok ((st.writeJson cat base (migMeta now cat base raw)).writeMd cat base
            (matter raw).content,
            [WEv.wjson cat base (migMeta now cat base raw),
             WEv.wmd cat base (matter raw).content],
            some (migMeta now cat base raw)) := by
        simp only [migrateToSplitFormat, hb2, hmd, hemp]
        rfl
      have hafter : ((st.writeJson cat base (migMeta now cat base raw)).writeMd cat base
          (matter raw).content).readMd cat base = some (matter raw).content := by
        apply readMd_writeMd_self
        rw [findDir_writeJson_isSome]
        exact hfd
      simp only [readProjectFile, hb, hj, hmd, hmig, hafter]
    · intro hemp
      have hmig : migrateToSplitFormat now st cat (base ++ ".md") = .ok (st, [], none) := by
        simp only [migrateToSplitFormat, hb2, hmd, hemp]
        rfl
      simp only [readProjectFile, hb, hj, hmd, hmig]
  · intro hj hmd
    simp only [readProjectFile, hb, hj, hmd]
  · intro herr
    simp only [readProjectFile, hb] at herr
    cases hj : st.readJson cat base with
    | some m =>
      simp only [hj] at herr
      exact Except.noConfusion herr
    | none =>
      cases hmd : st.readMd cat base with
      | some raw =>
        exfalso
        rw [hj, hmd] at herr
        have hfd : (st.findDir cat).isSome := findDir_isSome_of_readMd st cat base raw hmd
        by_cases hemp : (matter raw).data.isEmpty
        · have hmig : migrateToSplitFormat now st cat (base ++ ".md") = .ok (st, [], none) := by
            simp only [migrateToSplitFormat, hb2, hmd, hemp]
            rfl
          rw [hmig] at herr
          exact Except.noConfusion herr
        · have hemp2 : (matter raw).data.isEmpty = false := by
            simp [hemp]
          have hmig : migrateToSplitFormat now st cat (base ++ ".md") =
              .ok ((st.writeJson cat base (migMeta now cat base raw)).writeMd cat base
                (matter raw).content,
                [WEv.wjson cat base (migMeta now cat base raw),
                 WEv.wmd cat base (matter raw).content],
                some (migMeta now cat base raw)) := by
            simp only [migrateToSplitFormat, hb2, hmd, hemp2]
            rfl
          have hafter : ((st.writeJson cat base (migMeta now cat base raw)).writeMd cat base
              (matter raw).content).readMd cat base = some (matter raw).content := by
            apply readMd_writeMd_self
            rw [findDir_writeJson_isSome]
            exact hfd
          rw [hmig] at herr
          simp only [hafter] at herr
          exact Except.noConfusion herr
      | none => exact ⟨rfl, rfl⟩

/-- Counterexample to claim C4 as frozen: for a legacy file consisting of an
empty header block followed by the body `Hello`, the synthesized record
carries the stripped body `Hello`, not the raw content-file body
`---(newline)---(newline)Hello` the claim requires. -/
theorem readProject_empty_header_cex :
    (okVal (readProjectFile 7 ⟨[⟨"c", none, [("p", "---\n---\nHello")], []⟩], []⟩ "c" "p.md")).map
      (fun r => r.2.current_content) = some "Hello" ∧
    ((⟨[⟨"c", none, [("p", "---\n---\nHello")], []⟩], []⟩ : Store).readMd "c" "p" =
      some "---\n---\nHello") ∧
    ¬ (("Hello" : String) = "---\n---\nHello") := by
  refine ⟨by decide, by decide, by decide⟩

/-- Witness for C4 applying the metadata branch of the theorem at a concrete
split-format store. -/
theorem readProject_cases_witness :
    readProjectFile 7
      ⟨[⟨"c", none, [("p", "body")],
         [("p", ⟨"p", "N", none, [], "c", false, 1, 2, "text", []⟩)]⟩], []⟩ "c" "p.md" =
      .ok (⟨[⟨"c", none, [("p", "body")],
             [("p", ⟨"p", "N", none, [], "c", false, 1, 2, "text", []⟩)]⟩], []⟩,
           ⟨⟨"p", "N", none, [], "c", false, 1, 2, "text", []⟩, "body"⟩) := by
  have h := (readProject_cases 7
    ⟨[⟨"c", none, [("p", "body")],
       [("p", ⟨"p", "N", none, [], "c", false, 1, 2, "text", []⟩)]⟩], []⟩
    "c" "p.md" "p" (by decide) (by decide)).1
    ⟨"p", "N", none, [], "c", false, 1, 2, "text", []⟩ (by decide)
  have e : ((⟨[⟨"c", none, [("p", "body")],
      [("p", ⟨"p", "N", none, [], "c", false, 1, 2, "text", []⟩)]⟩], []⟩ : Store).readMd
      "c" "p").getD "" = "body" := by decide
  rw [e] at h
  exact h

/-- A fresh read directly after writing the metadata file returns the written
metadata together with the current content body. -/
theorem readProjectFile_after_write (now : Time) (st : Store) (cat id : String)
    (m1 : ProjMeta) (hid : baseOf id = id) (hfd : (st.findDir cat).isSome) :
    readProjectFile now (st.writeJson cat id m1) cat id =
      .ok (st.writeJson cat id m1,
           ⟨m1, ((st.writeJson cat id m1).readMd cat id).getD ""⟩) := by
  have hj : (st.writeJson cat id m1).readJson cat id = some m1 :=
    readJson_writeJson_self st cat id m1 hfd
  simp only [readProjectFile, hid, hj]

/-- Claim C1 (amended): for every resolvable project id whose resolved
category holds a metadata file or a legacy content file with non-empty header
(`effectiveMeta`), the favorite route flips `is_favorite` exactly once
relative to that metadata and persists the record with `updated_at`
unchanged — hence not earlier than the prior value — in the metadata file. -/
theorem favorite_toggle (now : Time) (st : Store) (id cat : String) (m0 : ProjMeta)
    (hid : baseOf id = id)
    (hid2 : replaceFirst (id ++ ".md") ".md" "" = id)
    (hres : resolveCat st id = some cat)
    (heff : effectiveMeta now st cat id = some m0) :
    ∃ st2 po, favoriteHandler now st id = .ok (st2, po) ∧
      st2.readJson cat id = some { m0 with is_favorite := !m0.is_favorite } ∧
      po.meta = { m0 with is_favorite := !m0.is_favorite } ∧
      po.meta.is_favorite = !m0.is_favorite ∧
      po.meta.updated_at = m0.updated_at ∧
      m0.updated_at ≤ po.meta.updated_at := by
  simp only [effectiveMeta] at heff
  cases hj : st.readJson cat id with
  | some m =>
    rw [hj] at heff
    cases heff
    have hfd : (st.findDir cat).isSome := findDir_isSome_of_readJson st cat id m0 hj
    have hmig : ensureMigrated now st cat id = .ok st := by
      simp [ensureMigrated, hj]
    have hread := readProjectFile_after_write now st cat id
      { m0 with is_favorite := !m0.is_favorite } hid hfd
    refine ⟨st.writeJson cat id { m0 with is_favorite := !m0.is_favorite },
      ⟨{ m0 with is_favorite := !m0.is_favorite },
       ((st.writeJson cat id { m0 with is_favorite := !m0.is_favorite }).readMd cat id).getD ""⟩,
      ?_, ?_, rfl, rfl, rfl, le_refl _⟩
    · simp only [favoriteHandler, hres, hmig, hj, hread]
    · exact readJson_writeJson_self st cat id _ hfd
  | none =>
    rw [hj] at heff
    cases hmd : st.readMd cat id with
    | none =>
      simp only [hmd] at heff
      exact Option.noConfusion heff
    | some raw =>
      simp only [hmd] at heff
      by_cases hemp : (matter raw).data.isEmpty = true
      · simp only [hemp, if_true] at heff
        exact Option.noConfusion heff
      · have hemp2 : (matter raw).data.isEmpty = false := by
          exact Bool.not_eq_true _ ▸ hemp
        simp only [hemp2, Bool.false_eq_true, if_false] at heff
        cases heff
        have hfd : (st.findDir cat).isSome := findDir_isSome_of_readMd st cat id raw hmd
        have hmigeq : migrateToSplitFormat now st cat (id ++ ".md") =
            .ok ((st.writeJson cat id (migMeta now cat id raw)).writeMd cat id
              (matter raw).content,
              [WEv.wjson cat id (migMeta now cat id raw),
               WEv.wmd cat id (matter raw).content],
              some (migMeta now cat id raw)) := by
          simp only [migrateToSplitFormat, hid2, hmd, hemp2]
          rfl
        have hmig : ensureMigrated now st cat id =
            .ok ((st.writeJson cat id (migMeta now cat id raw)).writeMd cat id
              (matter raw).content) := by
          simp [ensureMigrated, hj, hmigeq]
        set st1 := (st.writeJson cat id (migMeta now cat id raw)).writeMd cat id
          (matter raw).content with hst1
        have hj1 : st1.readJson cat id = some (migMeta now cat id raw) := by
          rw [hst1, readJson_writeMd]
          exact readJson_writeJson_self st cat id _ hfd
        have hfd1 : (st1.findDir cat).isSome := by
          rw [hst1, findDir_writeMd_isSome, findDir_writeJson_isSome]
          exact hfd
        have hread := readProjectFile_after_write now st1 cat id
          { migMeta now cat id raw with is_favorite := !(migMeta now cat id raw).is_favorite }
          hid hfd1
        refine ⟨st1.writeJson cat id
          { migMeta now cat id raw with is_favorite := !(migMeta now cat id raw).is_favorite },
          ⟨{ migMeta now cat id raw with is_favorite := !(migMeta now cat id raw).is_favorite },
           ((st1.writeJson cat id
             { migMeta now cat id raw with
               is_favorite := !(migMeta now cat id raw).is_favorite }).readMd cat id).getD ""⟩,
          ?_, ?_, rfl, rfl, rfl, le_refl _⟩
        · simp only [favoriteHandler, hres, hmig, hj1, hread]
        · exact readJson_writeJson_self st1 cat id _ hfd1

/-- Counterexample to claim C1 as frozen: a legacy content file with no header
is resolvable by the locator, yet the favorite route fails (the migration
returns null, so no metadata file exists to read) and flips nothing. -/
theorem favorite_headerless_cex :
    resolveCat ⟨[⟨"c", none, [("p", "hello")], []⟩], []⟩ "p" = some "c" ∧
    okB (favoriteHandler 7 ⟨[⟨"c", none, [("p", "hello")], []⟩], []⟩ "p") = false := by
  exact ⟨by decide, by decide⟩

/-- Witness for C1 applying the theorem at a concrete split-format project
whose favorite flag is off: the toggle turns it on and keeps `updated_at`. -/
theorem favorite_toggle_witness :
    ∃ st2 po, favoriteHandler 7
        ⟨[⟨"c", none, [("p", "body")],
           [("p", ⟨"p", "N", none, [], "c", false, 1, 2, "text", []⟩)]⟩], []⟩ "p" =
        .ok (st2, po) ∧
      st2.readJson "c" "p" =
        some { (⟨"p", "N", none, [], "c", false, 1, 2, "text", []⟩ : ProjMeta) with
                is_favorite := !false } ∧
      po.meta = { (⟨"p", "N", none, [], "c", false, 1, 2, "text", []⟩ : ProjMeta) with
                is_favorite := !false } ∧
      po.meta.is_favorite = !false ∧
      po.meta.updated_at = 2 ∧
      2 ≤ po.meta.updated_at :=
  favorite_toggle 7
    ⟨[⟨"c", none, [("p", "body")],
       [("p", ⟨"p", "N", none, [], "c", false, 1, 2, "text", []⟩)]⟩], []⟩ "p" "c"
    ⟨"p", "N", none, [], "c", false, 1, 2, "text", []⟩
    (by decide) (by decide) (by decide) (by decide)

/-- Field-by-field description of the PUT update on the metadata record, under
the proviso that the supplied name is not the (falsy, hence ignored) empty
string. -/
theorem applyUpdate_fields (m : ProjMeta) (r : UpdateReq) (now : Time)
    (hname : r.name ≠ some "") :
    (applyUpdate m r now).name = (match r.name with | some s => s | none => m.name) ∧
    (applyUpdate m r now).description =
      (match r.description with | some s => some s | none => m.description) ∧
    (applyUpdate m r now).tags = r.tags.getD m.tags ∧
    (applyUpdate m r now).is_favorite = r.is_favorite.getD m.is_favorite ∧
    (applyUpdate m r now).updated_at = now ∧
    (applyUpdate m r now).id = m.id ∧
    (applyUpdate m r now).created_at = m.created_at ∧
    (applyUpdate m r now).type = m.type ∧
    (applyUpdate m r now).versions = m.versions ∧
    (applyUpdate m r now).category_id = m.category_id := by
  rcases hn : r.name with _ | s
  · rcases hdd : r.description with _ | ds <;>
    rcases ht : r.tags with _ | ts <;>
    rcases hf : r.is_favorite with _ | bf <;>
      simp [applyUpdate, hn, hdd, ht, hf]
  · have hs : ¬(s = "") := by
      intro he
      exact hname (by rw [hn, he])
    rcases hdd : r.description with _ | ds <;>
    rcases ht : r.tags with _ | ts <;>
    rcases hf : r.is_favorite with _ | bf <;>
      simp [applyUpdate, hn, hdd, ht, hf, hs]

/-- The optional content write of the PUT route keeps the category directory
present. -/
theorem findDir_contentStep_isSome (st1 : Store) (cat id : String) (r : UpdateReq)
    (hfd1 : (st1.findDir cat).isSome) :
    (((match r.current_content with
       | some c => st1.writeMd cat id c
       | none => st1) : Store).findDir cat).isSome := by
  cases r.current_content with
  | none => exact hfd1
  | some c => rw [findDir_writeMd_isSome]; exact hfd1

/-- Claim C6 (amended): for every project with effective metadata (split, or
legacy with non-empty header) and every update request that asks for no
category move, the PUT route overwrites exactly the supplied fields among
description, tags and is_favorite — and name when supplied non-empty (a
supplied empty-string name is falsy in the source and ignored) — leaves id,
created_at, type, versions and category_id untouched, sets `updated_at` to
now, persists the record, and overwrites the content file verbatim when
`current_content` is supplied. -/
theorem update_frame (now : Time) (st : Store) (id cat : String) (r : UpdateReq)
    (m0 : ProjMeta)
    (hid : baseOf id = id)
    (hid2 : replaceFirst (id ++ ".md") ".md" "" = id)
    (hres : resolveCat st id = some cat)
    (heff : effectiveMeta now st cat id = some m0)
    (hname : r.name ≠ some "")
    (hmove : r.category_id = none ∨ r.category_id = some "" ∨ r.category_id = some cat) :
    ∃ st3 po, putHandler now st id r = .ok (st3, po) ∧
      st3.readJson cat id = some po.meta ∧
      po.meta.name = (match r.name with | some s => s | none => m0.name) ∧
      po.meta.description =
        (match r.description with | some s => some s | none => m0.description) ∧
      po.meta.tags = r.tags.getD m0.tags ∧
      po.meta.is_favorite = r.is_favorite.getD m0.is_favorite ∧
      po.meta.updated_at = now ∧
      po.meta.id = m0.id ∧
      po.meta.created_at = m0.created_at ∧
      po.meta.type = m0.type ∧
      po.meta.versions = m0.versions ∧
      po.meta.category_id = m0.category_id ∧
      (∀ c, r.current_content = some c → st3.readMd cat id = some c) := by
  simp only [effectiveMeta] at heff
  have main : ∀ st1 : Store, st1.readJson cat id = some m0 →
      ((st1.findDir cat)).isSome →
      (match st1.readJson cat id with
        | none => Except.error "ENOENT"
        | some meta =>
          let meta1 := applyUpdate meta r now
          let st2 := match r.current_content with
            | some c => st1.writeMd cat id c
            | none => st1
          let doMove := match r.category_id with
            | some c => !(c = "") && !(c = cat)
            | none => false
          match r.category_id, doMove with
          | some newCat, true =>
            let st3 := st2.ensureDir newCat
            let meta2 := { meta1 with category_id := newCat }
            if (st3.readJson newCat id).isSome then Except.error "EEXIST"
            else
              let st4 := (st3.unlinkJson cat id).writeJson newCat id meta
              let mdStep : Except String Store :=
                match st4.readMd cat id with
                | some c =>
                  if (st4.readMd newCat id).isSome then Except.error "EEXIST"
                  else Except.ok ((st4.unlinkMd cat id).writeMd newCat id c)
                | none => Except.ok st4
              match mdStep with
              | Except.error e => Except.error e
              | Except.ok st5 =>
                let st6 := st5.writeJson newCat id meta2
                readProjectFile now st6 newCat id
          | _, _ =>
            let st3 := st2.writeJson cat id meta1
            readProjectFile now st3 cat id) =
        .ok ((match r.current_content with
              | some c => st1.writeMd cat id c
              | none => st1).writeJson cat id (applyUpdate m0 r now),
          ⟨applyUpdate m0 r now,
           (((match r.current_content with
              | some c => st1.writeMd cat id c
              | none => st1).writeJson cat id (applyUpdate m0 r now)).readMd cat id).getD ""⟩) := by
    intro st1 hj1 hfd1
    set st2 := (match r.current_content with
      | some c => st1.writeMd cat id c
      | none => st1) with hst2
    have hfd2 : (st2.findDir cat).isSome := by
      rw [hst2]
      cases r.current_content with
      | none => exact hfd1
      | some c => rw [findDir_writeMd_isSome]; exact hfd1
    have hread := readProjectFile_after_write now st2 cat id (applyUpdate m0 r now) hid hfd2
    rcases hmove with hcid | hcid | hcid
    · simp only [hj1, hcid, hread]
    · simp only [hj1, hcid, eq_self_iff_true, decide_True, Bool.not_true,
        Bool.false_and, Bool.and_false, hread]
    · simp only [hj1, hcid, eq_self_iff_true, decide_True, Bool.not_true,
        Bool.false_and, Bool.and_false, hread]
  have fields := applyUpdate_fields m0 r now hname
  cases hj : st.readJson cat id with
  | some m =>
    rw [hj] at heff
    cases heff
    have hfd : (st.findDir cat).isSome := findDir_isSome_of_readJson st cat id m0 hj
    have hcond : ((st.readMd cat id).isSome && !(st.readJson cat id).isSome) = false := by
      rw [hj]
      simp
    set st2 := (match r.current_content with
      | some c => st.writeMd cat id c
      | none => st) with hst2
    refine ⟨st2.writeJson cat id (applyUpdate m0 r now),
      ⟨applyUpdate m0 r now,
       ((st2.writeJson cat id (applyUpdate m0 r now)).readMd cat id).getD ""⟩, ?_, ?_,
      fields.1, fields.2.1, fields.2.2.1, fields.2.2.2.1, fields.2.2.2.2.1,
      fields.2.2.2.2.2.1, fields.2.2.2.2.2.2.1, fields.2.2.2.2.2.2.2.1,
      fields.2.2.2.2.2.2.2.2.1, fields.2.2.2.2.2.2.2.2.2, ?_⟩
    · have h := main st hj hfd
      simp only [putHandler, hres, hcond, Bool.false_eq_true, if_false] at h ⊢
      exact h
    · apply readJson_writeJson_self
      exact findDir_contentStep_isSome st cat id r hfd
    · intro c hc
      rw [readMd_writeJson]
      rw [hst2, hc]
      apply readMd_writeMd_self
      exact hfd
  | none =>
    rw [hj] at heff
    cases hmd : st.readMd cat id with
    | none =>
      simp only [hmd] at heff
      exact Option.noConfusion heff
    | some raw =>
      simp only [hmd] at heff
      by_cases hemp : (matter raw).data.isEmpty = true
      · simp only [hemp, if_true] at heff
        exact Option.noConfusion heff
      · have hemp2 : (matter raw).data.isEmpty = false := by
          exact Bool.not_eq_true _ ▸ hemp
        simp only [hemp2, Bool.false_eq_true, if_false] at heff
        cases heff
        have hfd : (st.findDir cat).isSome := findDir_isSome_of_readMd st cat id raw hmd
        have hmigeq : migrateToSplitFormat now st cat (id ++ ".md") =
            .ok ((st.writeJson cat id (migMeta now cat id raw)).writeMd cat id
              (matter raw).content,
              [WEv.wjson cat id (migMeta now cat id raw),
               WEv.wmd cat id (matter raw).content],
              some (migMeta now cat id raw)) := by
          simp only [migrateToSplitFormat, hid2, hmd, hemp2]
          rfl
        set stM := (st.writeJson cat id (migMeta now cat id raw)).writeMd cat id
          (matter raw).content with hstM
        have hjM : stM.readJson cat id = some (migMeta now cat id raw) := by
          rw [hstM, readJson_writeMd]
          exact readJson_writeJson_self st cat id _ hfd
        have hfdM : (stM.findDir cat).isSome := by
          rw [hstM, findDir_writeMd_isSome, findDir_writeJson_isSome]
          exact hfd
        have hcond : ((st.readMd cat id).isSome && !(st.readJson cat id).isSome) = true := by
          rw [hj, hmd]
          simp
        set st2 := (match r.current_content with
          | some c => stM.writeMd cat id c
          | none => stM) with hst2
        refine ⟨st2.writeJson cat id (applyUpdate (migMeta now cat id raw) r now),
          ⟨applyUpdate (migMeta now cat id raw) r now,
           ((st2.writeJson cat id (applyUpdate (migMeta now cat id raw) r now)).readMd
             cat id).getD ""⟩, ?_, ?_,
          fields.1, fields.2.1, fields.2.2.1, fields.2.2.2.1, fields.2.2.2.2.1,
          fields.2.2.2.2.2.1, fields.2.2.2.2.2.2.1, fields.2.2.2.2.2.2.2.1,
          fields.2.2.2.2.2.2.2.2.1, fields.2.2.2.2.2.2.2.2.2, ?_⟩
        · have h := main stM hjM hfdM
          simp only [putHandler, hres, hcond, if_true, hmigeq] at h ⊢
          exact h
        · apply readJson_writeJson_self
          exact findDir_contentStep_isSome stM cat id r hfdM
        · intro c hc
          rw [readMd_writeJson]
          rw [hst2, hc]
          apply readMd_writeMd_self
          exact hfdM

/-- Counterexample to claim C6 as frozen: a request that explicitly supplies
the empty string as the new name leaves the stored name unchanged (the source
guards the update with JavaScript truthiness, and the empty string is falsy),
although the claim requires every explicitly supplied field to be
overwritten. -/
theorem update_empty_name_cex :
    (okVal (putHandler 9
      ⟨[⟨"c", none, [("p", "x")],
         [("p", ⟨"p", "Old", none, [], "c", false, 1, 2, "text", []⟩)]⟩], []⟩
      "p" { name := some "" })).map (fun r => r.2.meta.name) = some "Old" ∧
    ("Old" : String) ≠ "" := by
  exact ⟨by decide, by decide⟩

/-- Witness for C6 applying the theorem at a concrete split project with every
updatable field supplied: the supplied fields land, the frame fields stay, and
the content file is overwritten. -/
theorem update_frame_witness :
    ∃ st3 po, putHandler 9
        ⟨[⟨"c", none, [("p", "x")],
           [("p", ⟨"p", "Old", some "d", ["t"], "c", false, 1, 2, "text", []⟩)]⟩], []⟩ "p"
        { name := some "New", description := some "nd", tags := some ["a"],
          is_favorite := some true, current_content := some "cc" } = .ok (st3, po) ∧
      st3.readJson "c" "p" = some po.meta ∧
      po.meta.name = "New" ∧
      po.meta.description = some "nd" ∧
      po.meta.tags = ["a"] ∧
      po.meta.is_favorite = true ∧
      po.meta.updated_at = 9 ∧
      po.meta.id = "p" ∧
      po.meta.created_at = 1 ∧
      po.meta.type = "text" ∧
      po.meta.versions = [] ∧
      po.meta.category_id = "c" ∧
      (∀ c, (some "cc" : Option String) = some c → st3.readMd "c" "p" = some c) :=
  update_frame 9
    ⟨[⟨"c", none, [("p", "x")],
       [("p", ⟨"p", "Old", some "d", ["t"], "c", false, 1, 2, "text", []⟩)]⟩], []⟩
    "p" "c"
    { name := some "New", description := some "nd", tags := some ["a"],
      is_favorite := some true, current_content := some "cc" }
    ⟨"p", "Old", some "d", ["t"], "c", false, 1, 2, "text", []⟩
    (by decide) (by decide) (by decide) (by decide) (by decide) (Or.inl rfl)

/-- Writing into the resolved category keeps the locator answer, as long as
the written directory still matches after the write. -/
theorem firstMatch_updFirst (id cat : String) (f : Dir → Dir)
    (hf : ∀ d, (f d).dname = d.dname)
    (hmatch : ∀ d, d.dname = cat → matchesDir id (f d) = true)
    (ds : List Dir) (h : firstMatch id ds = some cat) :
    firstMatch id (updFirst cat f ds) = some cat := by
  induction ds with
  | nil => exact Option.noConfusion h
  | cons d rest ih =>
    simp only [updFirst]
    by_cases hd : d.dname = cat
    · rw [if_pos hd]
      simp only [firstMatch, hmatch d hd, if_true]
      rw [hf d, hd]
    · rw [if_neg hd]
      simp only [firstMatch] at h ⊢
      split at h
      · rename_i hm
        cases h
        exact absurd rfl hd
      · rename_i hm
        rw [if_neg (by rw [Bool.not_eq_true] at hm ⊢; exact hm)]
        exact ih h

/-- Comparator facts for the version sort. -/
theorem versionBefore_total (a b : Version) :
    versionBefore a b = true ∨ versionBefore b a = true := by
  simp only [versionBefore, decide_eq_true_eq]
  exact Nat.le_total _ _

theorem versionBefore_trans (a b c : Version) (h1 : versionBefore a b = true)
    (h2 : versionBefore b c = true) : versionBefore a c = true := by
  simp only [versionBefore, decide_eq_true_eq] at h1 h2 ⊢
  omega

/-- Claim C3: for every project in split form whose stored version numbers are
bounded by their count (the invariant the ledger maintains, since versions are
only ever created by append starting from the empty history), appending
content X creates the version numbered `count + 1`, and the subsequent version
listing is sorted by `version_num` descending with that new version — carrying
content X — as its entry of maximum `version_num`, at the head. -/
theorem append_list_roundtrip (now now2 : Time) (st : Store) (id X : String)
    (prm : Option (List (String × String))) (cat : String) (m0 : ProjMeta)
    (hres : resolveCat st id = some cat)
    (hj : st.readJson cat id = some m0)
    (hinv : ∀ v ∈ m0.versions, v.version_num ≤ m0.versions.length) :
    ∃ st3 nv, appendVersion now st id X prm = .ok (st3, nv) ∧
      nv.version_num = m0.versions.length + 1 ∧
      nv.content = X ∧
      ∃ vs, listVersions now2 st3 id = .ok (st3, vs) ∧
        vs.head? = some nv ∧
        List.Pairwise (fun a b => b.version_num ≤ a.version_num) vs ∧
        ∀ v ∈ vs, v.version_num ≤ nv.version_num := by
  have hfd : (st.findDir cat).isSome := findDir_isSome_of_readJson st cat id m0 hj
  have hmig : ensureMigrated now st cat id = .ok st := by
    simp [ensureMigrated, hj]
  set nv : Version := ⟨now, m0.versions.length + 1, X, prm.getD [], now⟩ with hnv
  set meta1 : ProjMeta :=
    { m0 with versions := m0.versions ++ [nv], updated_at := now } with hmeta1
  set st3 := (st.writeJson cat id meta1).writeMd cat id X with hst3
  have happ : appendVersion now st id X prm = .ok (st3, nv) := by
    simp only [appendVersion, hres, hmig, hj]
  have hnd : startsDot cat = false := firstMatch_nonDot id st.dirs cat hres
  have hres3 : resolveCat st3 id = some cat := by
    rw [hst3]
    simp only [resolveCat, Store.writeMd, Store.writeJson]
    apply firstMatch_updFirst id cat
      (fun d => { d with mds := setAssoc id X d.mds }) (fun d => rfl)
    · intro d hd
      simp only [matchesDir, hd, hnd, Bool.not_false, Bool.true_and,
        lookupA_setAssoc_self, Option.isSome_some, Bool.true_or]
    · apply firstMatch_updFirst id cat
        (fun d => { d with jsons := setAssoc id meta1 d.jsons }) (fun d => rfl)
      · intro d hd
        simp only [matchesDir, hd, hnd, Bool.not_false, Bool.true_and,
          lookupA_setAssoc_self, Option.isSome_some, Bool.or_true]
      · exact hres
  have hj3 : st3.readJson cat id = some meta1 := by
    rw [hst3, readJson_writeMd]
    exact readJson_writeJson_self st cat id meta1 hfd
  have hlist : listVersions now2 st3 id =
      .ok (st3, sortStable versionBefore meta1.versions) := by
    simp only [listVersions, hres3, hj3]
  have hmem : nv ∈ meta1.versions := by
    rw [hmeta1]
    simp
  have hmax : ∀ y ∈ meta1.versions, y ≠ nv → versionBefore y nv = false := by
    intro y hy hne
    rw [hmeta1] at hy
    simp only [List.mem_append, List.mem_singleton] at hy
    rcases hy with hy | hy
    · have := hinv y hy
      simp only [versionBefore, hnv]
      rw [decide_eq_false_iff_not]
      omega
    · exact absurd hy hne
  refine ⟨st3, nv, happ, rfl, rfl,
    sortStable versionBefore meta1.versions, hlist, ?_, ?_, ?_⟩
  · exact head_sortStable versionBefore meta1.versions nv
      versionBefore_total versionBefore_trans hmem hmax
  · have hpw := pairwise_sortStable versionBefore versionBefore_total
      versionBefore_trans meta1.versions
    exact hpw.imp (fun h => by
      simpa only [versionBefore, decide_eq_true_eq] using h)
  · intro v hv
    rw [mem_sortStable] at hv
    rw [hmeta1] at hv
    simp only [List.mem_append, List.mem_singleton] at hv
    rcases hv with hv | hv
    · have := hinv v hv
      simp only [hnv]
      omega
    · rw [hv]

/-- Witness for C3 replaying the scenario of the specification: an empty
version history, appending content `Buy now` yields version 1, which heads
the subsequent listing. -/
theorem append_list_roundtrip_witness :
    ∃ st3 nv, appendVersion 5
        ⟨[⟨"c", none, [("p", "")],
           [("p", ⟨"p", "Ad Copy", none, [], "c", false, 1, 2, "text", []⟩)]⟩], []⟩
        "p" "Buy now" none = .ok (st3, nv) ∧
      nv.version_num = 0 + 1 ∧
      nv.content = "Buy now" ∧
      ∃ vs, listVersions 6 st3 "p" = .ok (st3, vs) ∧
        vs.head? = some nv ∧
        List.Pairwise (fun a b => b.version_num ≤ a.version_num) vs ∧
        ∀ v ∈ vs, v.version_num ≤ nv.version_num :=
  append_list_roundtrip 5 6
    ⟨[⟨"c", none, [("p", "")],
       [("p", ⟨"p", "Ad Copy", none, [], "c", false, 1, 2, "text", []⟩)]⟩], []⟩
    "p" "Buy now" none "c"
    ⟨"p", "Ad Copy", none, [], "c", false, 1, 2, "text", []⟩
    (by decide) (by decide) (by decide)

theorem findDir_unlinkJson_isSome (st : Store) (c b : String) (n : String) :
    ((st.unlinkJson c b).findDir n).isSome = ((st.findDir n)).isSome := by
  simp only [Store.unlinkJson, Store.findDir]
  exact findDirL_updFirst_isSome c n
    (fun d => { d with jsons := delAssoc b d.jsons }) (fun d => rfl) st.dirs

theorem findDir_unlinkMd_isSome (st : Store) (c b : String) (n : String) :
    ((st.unlinkMd c b).findDir n).isSome = ((st.findDir n)).isSome := by
  simp only [Store.unlinkMd, Store.findDir]
  exact findDirL_updFirst_isSome c n
    (fun d => { d with mds := delAssoc b d.mds }) (fun d => rfl) st.dirs

/-- Claim C7: for every project split-stored in category A and moved to a
different category B (with B free of files for that id, as `fs.move` would
otherwise fail), the PUT route succeeds, the resulting metadata carries
`category_id = B` and is stored under B, and neither backing file of the id
remains under A. -/
theorem move_project (now : Time) (st : Store) (id A B : String) (m0 : ProjMeta)
    (hid : baseOf id = id)
    (hres : resolveCat st id = some A)
    (hj : st.readJson A id = some m0)
    (hBne : ¬(B = ""))
    (hBA : ¬(B = A))
    (hdj : st.readJson B id = none)
    (hdm : st.readMd B id = none) :
    ∃ st6 po, putHandler now st id { category_id := some B } = .ok (st6, po) ∧
      po.meta.category_id = B ∧
      st6.readJson B id = some po.meta ∧
      st6.readJson A id = none ∧
      st6.readMd A id = none := by
  have hAB : ¬(A = B) := fun h => hBA h.symm
  have hfdA : (st.findDir A).isSome := findDir_isSome_of_readJson st A id m0 hj
  have hBne2 : decide (B = "") = false := decide_eq_false hBne
  have hBA2 : decide (B = A) = false := decide_eq_false hBA
  have hdj3 : (st.ensureDir B).readJson B id = none := by
    rw [readJson_ensureDir]
    exact hdj
  have hdm3 : (st.ensureDir B).readMd B id = none := by
    rw [readMd_ensureDir]
    exact hdm
  have hfdB3 : ((st.ensureDir B).findDir B).isSome := findDir_ensureDir_self st B
  have hjA4 : (((st.ensureDir B).unlinkJson A id).writeJson B id m0).readJson A id = none := by
    rw [readJson_writeJson_ne _ _ _ _ _ _ (Or.inl hAB), readJson_unlinkJson_self]
  have hmdA4 : (((st.ensureDir B).unlinkJson A id).writeJson B id m0).readMd A id =
      st.readMd A id := by
    rw [readMd_writeJson, readMd_unlinkJson, readMd_ensureDir]
  have hmdB4 : (((st.ensureDir B).unlinkJson A id).writeJson B id m0).readMd B id = none := by
    rw [readMd_writeJson, readMd_unlinkJson, hdm3]
  have hfdB4 : ((((st.ensureDir B).unlinkJson A id).writeJson B id m0).findDir B).isSome := by
    rw [findDir_writeJson_isSome, findDir_unlinkJson_isSome]
    exact hfdB3
  cases hmdA : st.readMd A id with
  | some c =>
    have hmdA4c : (((st.ensureDir B).unlinkJson A id).writeJson B id m0).readMd A id =
        some c := by rw [hmdA4, hmdA]
    have hfdB5 : ((((((st.ensureDir B).unlinkJson A id).writeJson B id m0).unlinkMd A
        id).writeMd B id c).findDir B).isSome := by
      rw [findDir_writeMd_isSome, findDir_unlinkMd_isSome]
      exact hfdB4
    have hread := readProjectFile_after_write now
      (((((st.ensureDir B).unlinkJson A id).writeJson B id m0).unlinkMd A id).writeMd B id c)
      B id { applyUpdate m0 { category_id := some B } now with category_id := B } hid hfdB5
    refine ⟨(((((st.ensureDir B).unlinkJson A id).writeJson B id m0).unlinkMd A
        id).writeMd B id c).writeJson B id
        { applyUpdate m0 { category_id := some B } now with category_id := B },
      ⟨{ applyUpdate m0 { category_id := some B } now with category_id := B },
       ((((((st.ensureDir B).unlinkJson A id).writeJson B id m0).unlinkMd A
          id).writeMd B id c).writeJson B id
          { applyUpdate m0 { category_id := some B } now with
            category_id := B }).readMd B id |>.getD ""⟩, ?_, rfl, ?_, ?_, ?_⟩
    · simp only [putHandler, hres, hj, hmdA, Option.isSome_some, Bool.not_true,
        Bool.and_false, Bool.false_eq_true, if_false, hBne2, hBA2,
        Bool.not_false, Bool.true_and, hdj3, Option.isSome_none, hmdA4c,
        hmdB4, hread]
    · exact readJson_writeJson_self _ B id _ hfdB5
    · rw [readJson_writeJson_ne _ _ _ _ _ _ (Or.inl hAB),
        readJson_writeMd, readJson_unlinkMd, hjA4]
    · rw [readMd_writeJson, readMd_writeMd_ne _ _ _ _ _ _ (Or.inl hAB),
        readMd_unlinkMd_self]
  | none =>
    have hmdA4n : (((st.ensureDir B).unlinkJson A id).writeJson B id m0).readMd A id =
        none := by rw [hmdA4, hmdA]
    have hread := readProjectFile_after_write now
      (((st.ensureDir B).unlinkJson A id).writeJson B id m0)
      B id { applyUpdate m0 { category_id := some B } now with category_id := B } hid hfdB4
    refine ⟨(((st.ensureDir B).unlinkJson A id).writeJson B id m0).writeJson B id
        { applyUpdate m0 { category_id := some B } now with category_id := B },
      ⟨{ applyUpdate m0 { category_id := some B } now with category_id := B },
       ((((st.ensureDir B).unlinkJson A id).writeJson B id m0).writeJson B id
          { applyUpdate m0 { category_id := some B } now with
            category_id := B }).readMd B id |>.getD ""⟩, ?_, rfl, ?_, ?_, ?_⟩
    · simp only [putHandler, hres, hj, hmdA, Option.isSome_none, Bool.not_true,
        Bool.and_false, Bool.false_and, Bool.false_eq_true, if_false, hBne2, hBA2,
        Bool.not_false, Bool.true_and, hdj3, hmdA4n, hread]
    · exact readJson_writeJson_self _ B id _ hfdB4
    · rw [readJson_writeJson_ne _ _ _ _ _ _ (Or.inl hAB), hjA4]
    · rw [readMd_writeJson, hmdA4n]

/-- Witness for C7 at a concrete two-file project moved from category `a` to
the not-yet-existing category `b2`. -/
theorem move_project_witness :
    ∃ st6 po, putHandler 9
        ⟨[⟨"a", none, [("p", "body")],
           [("p", ⟨"p", "N", none, [], "a", false, 1, 2, "text", []⟩)]⟩], []⟩
        "p" { category_id := some "b2" } = .ok (st6, po) ∧
      po.meta.category_id = "b2" ∧
      st6.readJson "b2" "p" = some po.meta ∧
      st6.readJson "a" "p" = none ∧
      st6.readMd "a" "p" = none :=
  move_project 9
    ⟨[⟨"a", none, [("p", "body")],
       [("p", ⟨"p", "N", none, [], "a", false, 1, 2, "text", []⟩)]⟩], []⟩
    "p" "a" "b2" ⟨"p", "N", none, [], "a", false, 1, 2, "text", []⟩
    (by decide) (by decide) (by decide) (by decide) (by decide) (by decide) (by decide)

/-- Unpacks a successful directory match into its two conjuncts. -/
theorem matchesDir_parts (id : String) (d : Dir) (h : matchesDir id d = true) :
    startsDot d.dname = false ∧
      ((lookupA id d.mds).isSome || (lookupA id d.jsons).isSome) = true := by
  simp only [matchesDir, Bool.and_eq_true, Bool.not_eq_true'] at h
  exact h

/-- The delete scan stops at the first matching non-dot directory, cleans both
backing files there, and leaves every other directory untouched. -/
theorem deleteLoop_split (id : String) (pre : List Dir) (d : Dir) (post : List Dir)
    (hpre : ∀ d2 ∈ pre, matchesDir id d2 = false)
    (hd : matchesDir id d = true) :
    deleteLoop id (pre ++ d :: post) =
      .ok (pre ++ { d with mds := delAssoc id d.mds, jsons := delAssoc id d.jsons } :: post) := by
  induction pre with
  | nil =>
    obtain ⟨hdot, hfound⟩ := matchesDir_parts id d hd
    simp only [List.nil_append, deleteLoop, hdot, Bool.false_eq_true, if_false, hfound, if_true]
  | cons p rest ih =>
    have hp : matchesDir id p = false := hpre p (List.mem_cons_self p rest)
    have ihh := ih (fun d2 hd2 => hpre d2 (List.mem_cons_of_mem p hd2))
    simp only [List.cons_append, deleteLoop]
    have ihh2 : deleteLoop id (rest.append (d :: post)) =
        Except.ok (rest ++
          { d with mds := delAssoc id d.mds, jsons := delAssoc id d.jsons } :: post) := ihh
    by_cases hdot : startsDot p.dname
    · rw [if_pos hdot, ihh2]
    · rw [if_neg hdot]
      have hfound : ((lookupA id p.mds).isSome || (lookupA id p.jsons).isSome) = false := by
        simp only [matchesDir, Bool.and_eq_true, Bool.not_eq_true'] at hp
        rcases Bool.and_eq_false_iff.mp hp with h1 | h1
        · exfalso
          apply hdot
          rw [Bool.not_eq_false'] at h1
          exact h1
        · exact h1
      rw [hfound]
      simp only [Bool.false_eq_true, if_false]
      rw [ihh2]

/-- Claim C10: deletion removes the backing files of the id only in the first
category, in enumeration order, that contains either file, returning success
there; every earlier directory was checked and unmatched, and every later
directory — including one holding files of the same basename — is left
byte-for-byte unchanged. -/
theorem delete_first_category_only (st : Store) (id : String)
    (pre : List Dir) (d : Dir) (post : List Dir)
    (hsplit : st.dirs = pre ++ d :: post)
    (hpre : ∀ d2 ∈ pre, matchesDir id d2 = false)
    (hd : matchesDir id d = true) :
    deleteProject st id =
      .ok { st with dirs :=
        pre ++ { d with mds := delAssoc id d.mds, jsons := delAssoc id d.jsons } :: post } := by
  simp only [deleteProject, hsplit, deleteLoop_split id pre d post hpre hd]

/-- Witness for C10: two categories both hold files named `p`; deleting `p`
cleans the first and provably leaves the second directory unchanged inside
the resulting store. -/
theorem delete_first_category_only_witness :
    deleteProject
      ⟨[⟨"a", none, [("p", "x")], []⟩,
        ⟨"b", none, [("p", "y")], [("p", ⟨"p", "N", none, [], "b", false, 1, 2, "text", []⟩)]⟩],
       []⟩ "p" =
      .ok ⟨[⟨"a", none, delAssoc "p" [("p", "x")], delAssoc "p" []⟩,
            ⟨"b", none, [("p", "y")], [("p", ⟨"p", "N", none, [], "b", false, 1, 2, "text", []⟩)]⟩],
           []⟩ :=
  delete_first_category_only
    ⟨[⟨"a", none, [("p", "x")], []⟩,
      ⟨"b", none, [("p", "y")], [("p", ⟨"p", "N", none, [], "b", false, 1, 2, "text", []⟩)]⟩],
     []⟩ "p" []
    ⟨"a", none, [("p", "x")], []⟩
    [⟨"b", none, [("p", "y")], [("p", ⟨"p", "N", none, [], "b", false, 1, 2, "text", []⟩)]⟩]
    rfl (by decide) (by decide)

/-- Comparator facts for the category sort. -/
theorem catBefore_total (a b : CategoryOut) :
    catBefore a b = true ∨ catBefore b a = true := by
  simp only [catBefore, decide_eq_true_eq]
  exact le_total _ _

theorem catBefore_trans (a b c : CategoryOut) (h1 : catBefore a b = true)
    (h2 : catBefore b c = true) : catBefore a c = true := by
  simp only [catBefore, decide_eq_true_eq] at h1 h2 ⊢
  exact le_trans h1 h2

/-- Claim C8 (amended): the category listing returns, for every non-dot
top-level directory, the sidecar merged over the defaults (id and name from
the directory name, color blue, icon null, sort_order 99), sorted ascending by
`sort_order`; and category creation with a non-empty name fails with the
Conflict error when any top-level entry — directory or plain file such as
`settings.json` — already has that name (the source checks `fs.pathExists`,
not directory-ness), and otherwise creates the directory and writes a sidecar
whose `sort_order` is the creation timestamp. -/
theorem categories_spec (now : Time) (st : Store) (nm : String)
    (color icon : Option String) :
    List.Pairwise (fun a b => a.sort_order ≤ b.sort_order) (listCategories st) ∧
    (∀ co, co ∈ listCategories st ↔
      ∃ d ∈ st.dirs, startsDot d.dname = false ∧ co = mergeCatMeta d.dname d.catMeta) ∧
    mergeCatMeta nm none = ⟨nm, nm, "blue", none, 99⟩ ∧
    (∀ f : CatMetaFile, mergeCatMeta nm (some f) =
      ⟨f.id.getD nm, f.name.getD nm, f.color.getD "blue", f.icon.getD none,
       f.sort_order.getD 99⟩) ∧
    (¬(nm = "") → ((st.findDir nm).isSome || st.topFiles.contains nm) = true →
      createCategory now st nm color icon = .error "Category already exists") ∧
    (¬(nm = "") → ((st.findDir nm).isSome || st.topFiles.contains nm) = false →
      ∃ st1 co, createCategory now st nm color icon = .ok (st1, co) ∧
        co.sort_order = Int.ofNat now ∧ co.id = nm ∧ co.name = nm ∧
        ∃ d1 f1, st1.findDir nm = some d1 ∧ d1.catMeta = some f1 ∧
          f1.sort_order = some (Int.ofNat now)) := by
  refine ⟨?_, ?_, rfl, fun f => rfl, ?_, ?_⟩
  · have hpw := pairwise_sortStable catBefore catBefore_total catBefore_trans
      ((st.dirs.filter (fun d => !startsDot d.dname)).map (fun d => mergeCatMeta d.dname d.catMeta))
    exact hpw.imp (fun h => by
      simpa only [catBefore, decide_eq_true_eq] using h)
  · intro co
    rw [listCategories, mem_sortStable, List.mem_map]
    constructor
    · rintro ⟨d, hd, rfl⟩
      rw [List.mem_filter] at hd
      exact ⟨d, hd.1, by simpa using hd.2, rfl⟩
    · rintro ⟨d, hd, hdot, rfl⟩
      exact ⟨d, List.mem_filter.mpr ⟨hd, by simpa using hdot⟩, rfl⟩
  · intro hne hex
    simp only [createCategory, if_neg hne, hex, if_true]
  · intro hne hex
    refine ⟨{ st with dirs := st.dirs ++
        [⟨nm, some ⟨some nm, some nm, some (jsOrS color "blue"),
          some (match icon with
                | some s => if s = "" then none else some s
                | none => none), some (Int.ofNat now)⟩, [], []⟩] },
      ⟨nm, nm, jsOrS color "blue",
       (match icon with
        | some s => if s = "" then none else some s
        | none => none), Int.ofNat now⟩, ?_, rfl, rfl, rfl, ?_⟩
    · simp only [createCategory, if_neg hne, hex, Bool.false_eq_true, if_false]
    · refine ⟨⟨nm, some ⟨some nm, some nm, some (jsOrS color "blue"),
        some (match icon with
              | some s => if s = "" then none else some s
              | none => none), some (Int.ofNat now)⟩, [], []⟩,
        ⟨some nm, some nm, some (jsOrS color "blue"),
         some (match icon with
               | some s => if s = "" then none else some s
               | none => none), some (Int.ofNat now)⟩, ?_, rfl, rfl⟩
      have hnone : findDirL nm st.dirs = none := by
        cases e : findDirL nm st.dirs with
        | none => rfl
        | some d =>
          exfalso
          rcases Bool.or_eq_false_iff.mp hex with ⟨h1, h2⟩
          rw [Store.findDir] at h1
          rw [e] at h1
          exact Bool.noConfusion h1
      simp only [Store.findDir]
      rw [findDirL_append_of_none nm st.dirs _ hnone]
      simp [findDirL]

/-- Counterexample to claim C8 as frozen: with a top-level plain file
`settings.json` and no directory of that name, creating a category named
`settings.json` fails with the Conflict error although the claim promises the
sidecar write whenever the target directory does not exist. -/
theorem create_category_topfile_cex :
    Store.findDir ⟨[], ["settings.json"]⟩ "settings.json" = none ∧
    okB (createCategory 5 ⟨[], ["settings.json"]⟩ "settings.json" none none) = false := by
  exact ⟨by decide, by decide⟩

/-- Witness for C8 creating a fresh category in a store listing one dressed
directory: the sidecar lands with the creation timestamp as sort order. -/
theorem categories_spec_witness :
    ¬(("m" : String) = "") ∧
    ∃ st1 co, createCategory 44 ⟨[⟨"z", none, [], []⟩], []⟩ "m" none none = .ok (st1, co) ∧
      co.sort_order = Int.ofNat 44 ∧ co.id = "m" ∧ co.name = "m" ∧
      ∃ d1 f1, st1.findDir "m" = some d1 ∧ d1.catMeta = some f1 ∧
        f1.sort_order = some (Int.ofNat 44) :=
  ⟨by decide,
   (categories_spec 44 ⟨[⟨"z", none, [], []⟩], []⟩ "m" none none).2.2.2.2.2
     (by decide) (by decide)⟩

/-! ## Listing machinery for claim C9 -/

/-- The directory names of the store, in enumeration order. -/
def dirNames (st : Store) : List String := st.dirs.map (fun d => d.dname)

/-- The basenames of the content files of a directory, when it exists. -/
def mdKeysAt (st : Store) (n : String) : Option (List String) :=
  (st.findDir n).map (fun d => d.mds.map Prod.fst)

/-- Two stores enumerate the same projects: same directory names and same
content-file basenames everywhere (lazy migration rewrites bodies and adds
metadata files but never adds or removes a content file). -/
def sameShape (st st1 : Store) : Prop :=
  dirNames st1 = dirNames st ∧ ∀ n, mdKeysAt st1 n = mdKeysAt st n

theorem sameShape_refl (st : Store) : sameShape st st := ⟨rfl, fun _ => rfl⟩

theorem sameShape_trans (st st1 st2 : Store)
    (h1 : sameShape st st1) (h2 : sameShape st1 st2) : sameShape st st2 :=
  ⟨h2.1.trans h1.1, fun n => (h2.2 n).trans (h1.2 n)⟩

theorem updFirst_map_dname (n : String) (f : Dir → Dir)
    (hf : ∀ d, (f d).dname = d.dname) (ds : List Dir) :
    (updFirst n f ds).map (fun d => d.dname) = ds.map (fun d => d.dname) := by
  induction ds with
  | nil => rfl
  | cons d rest ih =>
    simp only [updFirst]
    split
    · simp [hf]
    · simp only [List.map_cons]
      rw [ih]

theorem sameShape_writeJson (st : Store) (c b : String) (m : ProjMeta) :
    sameShape st (st.writeJson c b m) := by
  constructor
  · simp only [dirNames, Store.writeJson]
    exact updFirst_map_dname c
      (fun d => { d with jsons := setAssoc b m d.jsons }) (fun d => rfl) st.dirs
  · intro n
    simp only [mdKeysAt, Store.writeJson, Store.findDir]
    by_cases hn : n = c
    · subst hn
      rw [findDirL_updFirst_self n (fun d => { d with jsons := setAssoc b m d.jsons })
        (fun d => rfl) st.dirs]
      cases findDirL n st.dirs <;> rfl
    · rw [findDirL_updFirst_ne c n (fun d => { d with jsons := setAssoc b m d.jsons })
        (fun d => rfl) st.dirs hn]

theorem sameShape_writeMd_existing (st : Store) (c b v : String)
    (h : (st.readMd c b).isSome) :
    sameShape st (st.writeMd c b v) := by
  constructor
  · simp only [dirNames, Store.writeMd]
    exact updFirst_map_dname c
      (fun d => { d with mds := setAssoc b v d.mds }) (fun d => rfl) st.dirs
  · intro n
    simp only [mdKeysAt, Store.writeMd, Store.findDir]
    by_cases hn : n = c
    · subst hn
      rw [findDirL_updFirst_self n (fun d => { d with mds := setAssoc b v d.mds })
        (fun d => rfl) st.dirs]
      simp only [Store.readMd, Store.findDir] at h
      cases e : findDirL n st.dirs with
      | none => rfl
      | some d =>
        rw [e] at h
        simp [setAssoc_keys_of_mem b v d.mds h]
    · rw [findDirL_updFirst_ne c n (fun d => { d with mds := setAssoc b v d.mds })
        (fun d => rfl) st.dirs hn]

theorem readProjectFile_sameShape (now : Time) (st : Store) (c f : String)
    (st1 : Store) (po : ProjectOut)
    (h : readProjectFile now st c f = .ok (st1, po)) : sameShape st st1 := by
  simp only [readProjectFile] at h
  cases hj : st.readJson c (baseOf f) with
  | some m =>
    rw [hj] at h
    simp only at h
    cases h
    exact sameShape_refl st
  | none =>
    rw [hj] at h
    cases hmd : st.readMd c (baseOf f) with
    | none =>
      rw [hmd] at h
      simp only at h
      exact Except.noConfusion h
    | some raw =>
      rw [hmd] at h
      simp only [migrateToSplitFormat] at h
      cases hmd2 : st.readMd c (replaceFirst (baseOf f ++ ".md") ".md" "") with
      | none =>
        rw [hmd2] at h
        simp only at h
        exact Except.noConfusion h
      | some raw2 =>
        rw [hmd2] at h
        by_cases hemp : (matter raw2).data.isEmpty = true
        · simp only [hemp, if_true] at h
          cases h
          exact sameShape_refl st
        · have hemp2 : (matter raw2).data.isEmpty = false := by
            exact Bool.not_eq_true _ ▸ hemp
          simp only [hemp2, Bool.false_eq_true, if_false] at h
          have hshape : sameShape st
              ((st.writeJson c (replaceFirst (baseOf f ++ ".md") ".md" "")
                (migMeta now c (replaceFirst (baseOf f ++ ".md") ".md" "") raw2)).writeMd c
                (replaceFirst (baseOf f ++ ".md") ".md" "") (matter raw2).content) := by
            apply sameShape_trans _ _ _
              (sameShape_writeJson st c (replaceFirst (baseOf f ++ ".md") ".md" "") _)
            apply sameShape_writeMd_existing
            rw [readMd_writeJson]
            rw [hmd2]
            rfl
          cases hre : ((st.writeJson c (replaceFirst (baseOf f ++ ".md") ".md" "")
              (migMeta now c (replaceFirst (baseOf f ++ ".md") ".md" "") raw2)).writeMd c
              (replaceFirst (baseOf f ++ ".md") ".md" "") (matter raw2).content).readMd c
              (baseOf f) with
          | none =>
            rw [hre] at h
            simp only at h
            exact Except.noConfusion h
          | some cc =>
            rw [hre] at h
            simp only at h
            cases h
            exact hshape

theorem readPairs_sameShape (now : Time) (ps : List (String × String)) :
    ∀ st st1 pos, readPairs now st ps = .ok (st1, pos) → sameShape st st1 := by
  induction ps with
  | nil =>
    intro st st1 pos h
    simp only [readPairs] at h
    cases h
    exact sameShape_refl st
  | cons p rest ih =>
    intro st st1 pos h
    simp only [readPairs] at h
    cases hr : readProjectFile now st p.1 (p.2 ++ ".md") with
    | error e =>
      rw [hr] at h
      exact Except.noConfusion h
    | ok r =>
      obtain ⟨stx, po⟩ := r
      simp only [hr] at h
      cases hr2 : readPairs now stx rest with
      | error e =>
        simp only [hr2] at h
        exact Except.noConfusion h
      | ok r2 =>
        obtain ⟨sty, ps2⟩ := r2
        simp only [hr2] at h
        cases h
        exact sameShape_trans _ _ _
          (readProjectFile_sameShape now st p.1 (p.2 ++ ".md") stx po (by rw [hr]))
          (ih stx st1 ps2 (by rw [hr2]))

theorem pairsOf_congr (st st1 : Store) (h : sameShape st st1) (c : String) :
    pairsOf st1 c = pairsOf st c := by
  have hk := h.2 c
  simp only [mdKeysAt] at hk
  simp only [pairsOf]
  cases e1 : st1.findDir c with
  | none =>
    rw [e1] at hk
    cases e : st.findDir c with
    | none => rfl
    | some d => rw [e] at hk; exact Option.noConfusion hk
  | some d1 =>
    rw [e1] at hk
    cases e : st.findDir c with
    | none => rw [e] at hk; exact Option.noConfusion hk
    | some d =>
      rw [e] at hk
      simp only [Option.map_some'] at hk
      have hkeys : d1.mds.map Prod.fst = d.mds.map Prod.fst := Option.some.inj hk
      have h1 : d1.mds.map (fun p => (c, p.1)) =
          (d1.mds.map Prod.fst).map (fun k => (c, k)) := by
        rw [List.map_map]
        rfl
      have h2 : d.mds.map (fun p => (c, p.1)) =
          (d.mds.map Prod.fst).map (fun k => (c, k)) := by
        rw [List.map_map]
        rfl
      have hfin : d1.mds.map (fun p => (c, p.1)) = d.mds.map (fun p => (c, p.1)) := by
        rw [h1, h2, hkeys]
      exact hfin

theorem readPairs_append (now : Time) (l1 l2 : List (String × String)) :
    ∀ st, readPairs now st (l1 ++ l2) =
      (match readPairs now st l1 with
       | .error e => .error e
       | .ok (st1, ps) =>
         match readPairs now st1 l2 with
         | .error e => .error e
         | .ok (st2, ps2) => .ok (st2, ps ++ ps2)) := by
  induction l1 with
  | nil =>
    intro st
    simp only [List.nil_append, readPairs]
    cases readPairs now st l2 with
    | error e => rfl
    | ok r => rfl
  | cons p rest ih =>
    intro st
    simp only [List.cons_append, readPairs]
    cases readProjectFile now st p.1 (p.2 ++ ".md") with
    | error e => rfl
    | ok r =>
      obtain ⟨st1, po⟩ := r
      have ih2 : readPairs now st1 (rest.append l2) =
          (match readPairs now st1 rest with
           | .error e => .error e
           | .ok (stx, ps) =>
             match readPairs now stx l2 with
             | .error e => .error e
             | .ok (st2, ps2) => .ok (st2, ps ++ ps2)) := ih st1
      simp only [ih2]
      cases hrr : readPairs now st1 rest with
      | error e => simp only [hrr]
      | ok r2 =>
        obtain ⟨st2, ps⟩ := r2
        simp only [hrr]
        cases hx : readPairs now st2 l2 with
        | error e => simp only [hx]
        | ok r3 => simp only [hx, List.cons_append]

theorem listDirsLoop_eq (now : Time) (cats : List String) :
    ∀ st, listDirsLoop now st cats =
      readPairs now st ((cats.map (pairsOf st)).flatten) := by
  induction cats with
  | nil =>
    intro st
    simp only [listDirsLoop, List.map_nil, List.flatten_nil, readPairs]
  | cons c cs ih =>
    intro st
    simp only [listDirsLoop, List.map_cons, List.flatten_cons]
    cases e : st.findDir c with
    | none =>
      simp only [pairsOf, e, List.nil_append]
      exact ih st
    | some d =>
      have hpc : pairsOf st c = d.mds.map (fun p => (c, p.1)) := by
        simp only [pairsOf, e]
      rw [hpc, readPairs_append now (d.mds.map (fun p => (c, p.1))) ((cs.map (pairsOf st)).flatten) st]
      cases hr : readPairs now st (d.mds.map (fun p => (c, p.1))) with
      | error e2 => simp only [e, hr]
      | ok r =>
        obtain ⟨st1, ps⟩ := r
        have hshape := readPairs_sameShape now (d.mds.map (fun p => (c, p.1))) st st1 ps
          (by rw [hr])
        have hmapeq : cs.map (pairsOf st1) = cs.map (pairsOf st) :=
          List.map_congr_left (fun c2 _ => pairsOf_congr st st1 hshape c2)
        have ih2 : listDirsLoop now st1 cs =
            readPairs now st1 ((cs.map (pairsOf st)).flatten) := by
          rw [ih st1, hmapeq]
        simp only [e, hr, ih2]

theorem findDirL_mem (n : String) (ds : List Dir) (d : Dir)
    (h : findDirL n ds = some d) : d ∈ ds := by
  induction ds with
  | nil => exact Option.noConfusion h
  | cons d1 rest ih =>
    simp only [findDirL] at h
    split at h
    · cases h
      exact List.mem_cons_self _ _
    · exact List.mem_cons_of_mem _ (ih h)

theorem lookupA_isSome_of_mem_keys (k : String) (l : List (String × β))
    (h : k ∈ l.map Prod.fst) : (lookupA k l).isSome := by
  induction l with
  | nil => simp at h
  | cons p rest ih =>
    simp only [List.map_cons, List.mem_cons] at h
    simp only [lookupA]
    by_cases hk : p.1 = k
    · simp [hk]
    · rw [if_neg hk]
      rcases h with h | h
      · exact absurd h.symm hk
      · exact ih h

theorem firstMatch_findDir (id : String) (ds : List Dir) (c : String)
    (hnod : (ds.map (fun d => d.dname)).Nodup)
    (h : firstMatch id ds = some c) :
    ∃ d, findDirL c ds = some d ∧ matchesDir id d = true := by
  induction ds with
  | nil => exact Option.noConfusion h
  | cons d rest ih =>
    simp only [List.map_cons, List.nodup_cons] at hnod
    simp only [firstMatch] at h
    split at h
    · rename_i hm
      cases h
      exact ⟨d, by simp [findDirL], hm⟩
    · rename_i hm
      obtain ⟨d0, hd0, hm0⟩ := ih hnod.2 h
      refine ⟨d0, ?_, hm0⟩
      simp only [findDirL]
      rw [if_neg ?_]
      · exact hd0
      · intro he
        apply hnod.1
        rw [he]
        have := findDirL_dname c rest d0 hd0
        rw [← this]
        exact List.mem_map_of_mem (fun d => d.dname) (findDirL_mem c rest d0 hd0)

/-- Claim C9: a project stored in split format whose content file is absent
everywhere is returned by the single-id resolve/read route (with empty
content), yet the project listing — with or without a category filter — never
enumerates it: the listing is exactly the reads of the `(category, basename)`
pairs backed by `.md` files, sorted by `updated_at` descending, and none of
those basenames is this project. -/
theorem listing_requires_content_file (now : Time) (st : Store) (base cat : String)
    (m0 : ProjMeta)
    (hnod : (st.dirs.map (fun d => d.dname)).Nodup)
    (hbase : baseOf (base ++ ".md") = base)
    (hdot : startsDot cat = false)
    (hj : st.readJson cat base = some m0)
    (hmd : ∀ d ∈ st.dirs, lookupA base d.mds = none) :
    (∃ c2, resolveCat st base = some c2) ∧
    (∃ po, getProject now st base = .ok (st, po) ∧ po.current_content = "") ∧
    (∀ cid, (∀ pr ∈ listingBases st cid, ¬(pr.2 = base)) ∧
      listProjects now st cid false none =
        (match readPairs now st (listingBases st cid) with
         | .error e => .error e
         | .ok (st1, ps) => .ok (st1, sortStable projBefore ps))) := by
  have hfd0 : ∃ d0, st.findDir cat = some d0 ∧ lookupA base d0.jsons = some m0 := by
    simp only [Store.readJson] at hj
    cases e : st.findDir cat with
    | none => rw [e] at hj; exact Option.noConfusion hj
    | some d0 =>
      rw [e] at hj
      exact ⟨d0, rfl, hj⟩
  obtain ⟨d0, hd0, hjd0⟩ := hfd0
  have hd0mem : d0 ∈ st.dirs := findDirL_mem cat st.dirs d0 hd0
  have hd0name : d0.dname = cat := findDirL_dname cat st.dirs d0 hd0
  have hd0match : matchesDir base d0 = true := by
    simp only [matchesDir, hd0name, hdot, Bool.not_false, Bool.true_and,
      hmd d0 hd0mem, Option.isSome_none, hjd0, Option.isSome_some, Bool.or_true]
  have hres : ∃ c2, resolveCat st base = some c2 := by
    cases e : firstMatch base st.dirs with
    | none =>
      exfalso
      have := (firstMatch_none_iff base st.dirs).mp e d0 hd0mem
      rw [hd0match] at this
      exact Bool.noConfusion this
    | some c2 => exact ⟨c2, e⟩
  obtain ⟨c2, hres2⟩ := hres
  refine ⟨⟨c2, hres2⟩, ?_, ?_⟩
  · obtain ⟨d2, hd2, hd2match⟩ := firstMatch_findDir base st.dirs c2 hnod hres2
    have hd2mem : d2 ∈ st.dirs := findDirL_mem c2 st.dirs d2 hd2
    have hd2mdnone : lookupA base d2.mds = none := hmd d2 hd2mem
    have hd2json : (lookupA base d2.jsons).isSome := by
      simp only [matchesDir, Bool.and_eq_true] at hd2match
      rcases Bool.or_eq_true_iff.mp hd2match.2 with h | h
      · rw [hd2mdnone] at h
        exact Bool.noConfusion h
      · exact h
    obtain ⟨m2, hm2⟩ := Option.isSome_iff_exists.mp hd2json
    have hj2 : st.readJson c2 base = some m2 := by
      simp only [Store.readJson, Store.findDir, hd2, hm2]
    have hmd2 : st.readMd c2 base = none := by
      simp only [Store.readMd, Store.findDir, hd2, hd2mdnone]
    refine ⟨⟨m2, ""⟩, ?_, rfl⟩
    simp only [getProject, hres2, readProjectFile, hbase, hj2, hmd2, Option.getD_none]
  · intro cid
    constructor
    · intro pr hpr he
      simp only [listingBases, List.mem_flatten] at hpr
      obtain ⟨l, hl, hprl⟩ := hpr
      rw [List.mem_map] at hl
      obtain ⟨c0, hc0, rfl⟩ := hl
      simp only [pairsOf] at hprl
      cases e : st.findDir c0 with
      | none =>
        rw [e] at hprl
        simp at hprl
      | some d3 =>
        rw [e] at hprl
        rw [List.mem_map] at hprl
        obtain ⟨p, hp, hpeq⟩ := hprl
        have hkey : pr.2 = p.1 := by rw [← hpeq]
        have hmem : base ∈ d3.mds.map Prod.fst := by
          rw [← he, hkey]
          exact List.mem_map_of_mem Prod.fst hp
        have := lookupA_isSome_of_mem_keys base d3.mds hmem
        rw [hmd d3 (findDirL_mem c0 st.dirs d3 e)] at this
        exact Bool.noConfusion this
    · simp only [listProjects, listingBases]
      rw [listDirsLoop_eq now _ st]
      cases hre : readPairs now st
          ((((match cid with
             | some c => [c]
             | none => (st.dirs.map (fun d : Dir => d.dname)).filter
                 (fun n => !startsDot n)) : List String).map (pairsOf st)).flatten) with
      | error e => rfl
      | ok r =>
        obtain ⟨st1, ps⟩ := r
        rfl

/-- Witness for C9 on a concrete store: category `b` holds only the metadata
file of project `p`; it resolves and reads fine with empty content, and the
unfiltered listing enumerates only the `.md`-backed project of category
`a`, never `p`. -/
theorem listing_requires_content_file_witness :
    (∃ c2, resolveCat
      ⟨[⟨"a", none, [("q", "hi")], []⟩,
        ⟨"b", none, [], [("p", ⟨"p", "N", none, [], "b", false, 1, 2, "text", []⟩)]⟩], []⟩
      "p" = some c2) ∧
    (∃ po, getProject 7
      ⟨[⟨"a", none, [("q", "hi")], []⟩,
        ⟨"b", none, [], [("p", ⟨"p", "N", none, [], "b", false, 1, 2, "text", []⟩)]⟩], []⟩
      "p" = .ok (⟨[⟨"a", none, [("q", "hi")], []⟩,
        ⟨"b", none, [], [("p", ⟨"p", "N", none, [], "b", false, 1, 2, "text", []⟩)]⟩], []⟩, po) ∧
      po.current_content = "") ∧
    ((∀ pr ∈ listingBases
        ⟨[⟨"a", none, [("q", "hi")], []⟩,
          ⟨"b", none, [], [("p", ⟨"p", "N", none, [], "b", false, 1, 2, "text", []⟩)]⟩], []⟩
        none, ¬(pr.2 = "p")) ∧
      listProjects 7
        ⟨[⟨"a", none, [("q", "hi")], []⟩,
          ⟨"b", none, [], [("p", ⟨"p", "N", none, [], "b", false, 1, 2, "text", []⟩)]⟩], []⟩
        none false none =
        (match readPairs 7
          ⟨[⟨"a", none, [("q", "hi")], []⟩,
            ⟨"b", none, [], [("p", ⟨"p", "N", none, [], "b", false, 1, 2, "text", []⟩)]⟩], []⟩
          (listingBases
            ⟨[⟨"a", none, [("q", "hi")], []⟩,
              ⟨"b", none, [], [("p", ⟨"p", "N", none, [], "b", false, 1, 2, "text", []⟩)]⟩], []⟩
            none) with
         | .error e => .error e
         | .ok (st1, ps) => .ok (st1, sortStable projBefore ps))) := by
  have h := listing_requires_content_file 7
    ⟨[⟨"a", none, [("q", "hi")], []⟩,
      ⟨"b", none, [], [("p", ⟨"p", "N", none, [], "b", false, 1, 2, "text", []⟩)]⟩], []⟩
    "p" "b" ⟨"p", "N", none, [], "b", false, 1, 2, "text", []⟩
    (by decide) (by decide) (by decide) (by decide) (by decide)
  exact ⟨h.1, h.2.1, h.2.2 none⟩

end PromptBox
